import Mathlib

/-!
Verification development for the npm-blast-radius CLI (src/index.js).

The file shallowly embeds the program's core subsystems — the resilient
fetch retry loop (fetchJSON / fetchText), the version-timeline builder
(listVersionDatesFromTimeMap), the blast-radius resolver
(maxSatisfyingAtOrBefore / maxSatisfyingNow / isExactPin), the dependent
discovery cascade (fetchAllDependents), the dependency declaration locator
(findDependencyRange) and the per-dependent analysis pipeline
(processPackage's inner task) — and proves theorems settling the frozen
specification claims.

External collaborators are modelled as follows: the node-semver library is
embedded at the level the program uses it (coerce, compare, eq,
maxSatisfying, satisfies on caret/exact ranges); HTTP responses, page
contents and JavaScript Date parsing are parameters of the embedding, so
theorems quantify over every possible environment behaviour.
-/

/-- Semantic version as produced by semver.coerce: three numeric components
(coerce discards any prerelease/build information). -/
structure Version where
  major : Nat
  minor : Nat
  patch : Nat
deriving DecidableEq, Repr

/-- Strict precedence order on coerced versions (lexicographic on major,
minor, patch), mirroring semver.compare on prerelease-free versions. -/
def vlt (a b : Version) : Bool :=
  decide (a.major < b.major ∨ (a.major = b.major ∧ (a.minor < b.minor ∨
    (a.minor = b.minor ∧ a.patch < b.patch))))

/-- Non-strict counterpart of `vlt`. -/
def vle (a b : Version) : Bool := !vlt b a

/-- Three-way comparison mirroring semver.compare restricted to coerced
versions: -1 when a < b, 1 when a > b, 0 when equal. -/
def vcompare (a b : Version) : Int := if vlt a b then -1 else if vlt b a then 1 else 0

theorem vlt_iff (a b : Version) : vlt a b = true ↔
    (a.major < b.major ∨ (a.major = b.major ∧ (a.minor < b.minor ∨
      (a.minor = b.minor ∧ a.patch < b.patch)))) := by
  simp [vlt]

theorem vlt_irrefl (a : Version) : vlt a a = false := by
  simp [vlt]

theorem vlt_asymm {a b : Version} (h : vlt a b = true) : vlt b a = false := by
  rw [vlt_iff] at h
  simp only [vlt, decide_eq_false_iff_not]
  omega

theorem vlt_trans {a b c : Version} (h1 : vlt a b = true) (h2 : vlt b c = true) :
    vlt a c = true := by
  rw [vlt_iff] at h1 h2 ⊢
  omega

theorem vle_refl (a : Version) : vle a a = true := by
  simp [vle, vlt_irrefl]

theorem vle_iff (a b : Version) : vle a b = true ↔ vlt b a = false := by
  simp [vle]

theorem vlt_to_vle {a b : Version} (h : vlt a b = true) : vle a b = true := by
  simp [vle, vlt_asymm h]

theorem vle_trans {a b c : Version} (h1 : vle a b = true) (h2 : vle b c = true) :
    vle a c = true := by
  rw [vle_iff] at h1 h2 ⊢
  simp only [vlt, decide_eq_false_iff_not] at h1 h2 ⊢
  omega

theorem vle_antisymm {a b : Version} (h1 : vle a b = true) (h2 : vle b a = true) :
    a = b := by
  rw [vle_iff] at h1 h2
  simp only [vlt, decide_eq_false_iff_not] at h1 h2
  cases a; cases b
  simp only [Version.mk.injEq]
  simp only at h1 h2
  omega

theorem vlt_total {a b : Version} (h : vlt a b = false) : vle b a = true := by
  simp [vle, h]

/-- Numeric value of a run of decimal digit characters. -/
def natOfDigits (ds : List Char) : Nat := ds.foldl (fun n c => n * 10 + (c.toNat - 48)) 0

/-- Split a character list into its maximal leading digit run and the rest. -/
def splitDigits : List Char → List Char × List Char
  | [] => ([], [])
  | c :: cs =>
    if c.isDigit then
      let p := splitDigits cs
      (c :: p.1, p.2)
    else ([], c :: cs)

theorem splitDigits_snd_length (l : List Char) : (splitDigits l).2.length ≤ l.length := by
  induction l with
  | nil => simp [splitDigits]
  | cons c cs ih =>
    by_cases h : c.isDigit
    · simp [splitDigits, h]
      omega
    · simp [splitDigits, h]

/-- Minor/patch digit runs of a COERCE regular-expression match, given the
characters following the major run: an optional `.digits` minor group and,
when the minor group matched, an optional `.digits` patch group.  A run
longer than 16 digits makes its group fail, exactly as in the bounded
regular expression. -/
def minorPatch (rest : List Char) : Option (List Char) × Option (List Char) :=
  match rest with
  | '.' :: r2 =>
    let q := splitDigits r2
    if q.1.length = 0 ∨ 16 < q.1.length then (none, none)
    else (some q.1,
      match q.2 with
      | '.' :: r3 =>
        let w := splitDigits r3
        if w.1.length = 0 ∨ 16 < w.1.length then none else some w.1
      | _ => none)
  | _ => (none, none)

/-- Worker of coerceMatch, structurally recursive on a fuel bound that always
dominates the remaining list length (every recursive call strictly shortens
the list). -/
def coerceMatchAux : Nat → List Char → Option (List Char × Option (List Char) × Option (List Char))
  | 0, _ => none
  | _, [] => none
  | fuel + 1, c :: cs =>
    if c.isDigit then
      let p := splitDigits cs
      if (c :: p.1).length ≤ 16 then some (c :: p.1, minorPatch p.2)
      else coerceMatchAux fuel p.2
    else coerceMatchAux fuel cs

/-- Digit runs of the first match of node-semver's COERCE regular expression
`(^|\D)(\d{1,16})(\.(\d{1,16}))?(\.(\d{1,16}))?($|\D)` in a character list: a
digit run of at most 16 digits starting at the beginning of a run, with
optional dotted minor and patch runs.  A run longer than 16 digits can never
participate in a match, so scanning resumes after it. -/
def coerceMatch (l : List Char) : Option (List Char × Option (List Char) × Option (List Char)) :=
  coerceMatchAux l.length l

/-- SemVer component validation applied by parse to the matched runs: no
leading zero on a multi-digit component, magnitude at most
Number.MAX_SAFE_INTEGER. -/
def validComponent (run : List Char) : Bool :=
  (run.length = 1 || run.head? != some '0') && decide (natOfDigits run ≤ 9007199254740991)

/-- Model of semver.coerce: find the first dotted digit runs anywhere in the
string (so a caret, an equals sign, a leading v or other junk before the
digits is skipped), then validate the components as parse does; the result
is the coerced three-component version, or none when no valid match exists. -/
def coerce (s : String) : Option Version :=
  match coerceMatch s.data with
  | none => none
  | some (maj, mi, pa) =>
    if validComponent maj && (match mi with | some r => validComponent r | none => true)
        && (match pa with | some r => validComponent r | none => true) then
      some ⟨natOfDigits maj, (mi.map natOfDigits).getD 0, (pa.map natOfDigits).getD 0⟩
    else none

/-- Modelled fragment of node-semver's range language: the primitive ranges
the analysed program exercises, namely exact pins and caret ranges. -/
inductive Range where
  | exact (v : Version)
  | caret (v : Version)
deriving DecidableEq, Repr

/-- Exclusive upper bound of a caret range, per node-semver semantics. -/
def caretUpper (v : Version) : Version :=
  if v.major ≠ 0 then ⟨v.major + 1, 0, 0⟩
  else if v.minor ≠ 0 then ⟨0, v.minor + 1, 0⟩
  else ⟨0, 0, v.patch + 1⟩

/-- Range satisfaction for the modelled fragment (on prerelease-free
versions the prerelease-inclusive mode coincides with the plain one). -/
def rangeSatisfies (v : Version) : Range → Bool
  | .exact e => v == e
  | .caret b => vle b v && vlt v (caretUpper b)

/-- Fold step of semver.maxSatisfying: keep the running maximum among the
versions that satisfy the range. -/
def msStep (r : Range) (acc : Option Version) (v : Version) : Option Version :=
  if rangeSatisfies v r then
    match acc with
    | none => some v
    | some m => if vlt m v then some v else some m
  else acc

/-- Model of semver.maxSatisfying over a candidate list. -/
def maxSatisfying (candidates : List Version) (r : Range) : Option Version :=
  candidates.foldl (msStep r) none

theorem msFold_eq_none {r : Range} (l : List Version) :
    ∀ acc, l.foldl (msStep r) acc = none ↔
      acc = none ∧ ∀ v ∈ l, rangeSatisfies v r = false := by
  induction l with
  | nil => simp
  | cons v vs ih =>
    intro acc
    by_cases hs : rangeSatisfies v r
    · constructor
      · intro h
        rw [List.foldl_cons, ih] at h
        rcases h with ⟨h1, _⟩
        exfalso
        cases acc with
        | none => simp [msStep, hs] at h1
        | some m => simp [msStep, hs] at h1; split at h1 <;> simp_all
      · rintro ⟨_, hall⟩
        exact absurd (hall v (List.mem_cons_self v vs)) (by simp [hs])
    · rw [List.foldl_cons]
      have hstep : msStep r acc v = acc := by simp [msStep, hs]
      rw [hstep, ih]
      constructor
      · rintro ⟨h1, h2⟩
        refine ⟨h1, ?_⟩
        intro u hu
        rcases List.mem_cons.mp hu with h | h
        · subst h; simpa using hs
        · exact h2 u h
      · rintro ⟨h1, h2⟩
        exact ⟨h1, fun u hu => h2 u (List.mem_cons_of_mem v hu)⟩

theorem msFold_some_mem {r : Range} (l : List Version) :
    ∀ acc m, l.foldl (msStep r) acc = some m →
      (m ∈ l ∧ rangeSatisfies m r = true) ∨ acc = some m := by
  induction l with
  | nil => simp
  | cons v vs ih =>
    intro acc m h
    rw [List.foldl_cons] at h
    rcases ih (msStep r acc v) m h with hin | heq
    · exact Or.inl ⟨List.mem_cons_of_mem v hin.1, hin.2⟩
    · by_cases hs : rangeSatisfies v r
      · cases acc with
        | none =>
          simp [msStep, hs] at heq
          subst heq
          exact Or.inl ⟨List.mem_cons_self v vs, hs⟩
        | some a =>
          simp only [msStep, hs, if_true] at heq
          split at heq
          · cases heq
            exact Or.inl ⟨List.mem_cons_self v vs, hs⟩
          · exact Or.inr heq
      · simp only [msStep, hs] at heq
        simp at heq
        exact Or.inr heq

theorem msFold_some_ge {r : Range} (l : List Version) :
    ∀ acc m, l.foldl (msStep r) acc = some m →
      (∀ v ∈ l, rangeSatisfies v r = true → vle v m = true) ∧
      (∀ a, acc = some a → vle a m = true) := by
  induction l with
  | nil =>
    intro acc m h
    simp at h
    subst h
    refine ⟨by simp, fun a ha => ?_⟩
    have hma : m = a := by injection ha
    subst hma
    exact vle_refl m
  | cons v vs ih =>
    intro acc m h
    rw [List.foldl_cons] at h
    obtain ⟨hall, hacc⟩ := ih (msStep r acc v) m h
    constructor
    · intro u hu hsu
      rcases List.mem_cons.mp hu with h' | h'
      · subst h'
        by_cases hs : rangeSatisfies u r
        · cases acc with
          | none => exact hacc u (by simp [msStep, hs])
          | some a =>
            by_cases hlt : vlt a u
            · exact hacc u (by simp [msStep, hs, hlt])
            · have ha : vle a m := hacc a (by simp [msStep, hs, hlt])
              exact vle_trans (vlt_total (by simpa using hlt)) ha
        · exact absurd hsu (by simp [hs])
      · exact hall u h' hsu
    · intro a ha
      subst ha
      by_cases hs : rangeSatisfies v r
      · by_cases hlt : vlt a v
        · have hv : vle v m := hacc v (by simp [msStep, hs, hlt])
          exact vle_trans (vlt_to_vle hlt) hv
        · exact hacc a (by simp [msStep, hs, hlt])
      · exact hacc a (by simp [msStep, hs])

/-- Characterization of semver.maxSatisfying: it returns exactly the
greatest candidate satisfying the range. -/
theorem maxSatisfying_some_iff (c : List Version) (r : Range) (m : Version) :
    maxSatisfying c r = some m ↔
      m ∈ c ∧ rangeSatisfies m r = true ∧
        ∀ v ∈ c, rangeSatisfies v r = true → vle v m = true := by
  constructor
  · intro h
    rcases msFold_some_mem c none m h with ⟨hm, hs⟩ | habs
    · exact ⟨hm, hs, (msFold_some_ge c none m h).1⟩
    · cases habs
  · rintro ⟨hm, hs, hmax⟩
    cases hres : maxSatisfying c r with
    | none =>
      rw [maxSatisfying, msFold_eq_none] at hres
      exact absurd hs (by simp [hres.2 m hm])
    | some m' =>
      rcases msFold_some_mem c none m' hres with ⟨hm', hs'⟩ | habs
      · have h1 : vle m m' := (msFold_some_ge c none m' hres).1 m hm hs
        have h2 : vle m' m := hmax m' hm' hs'
        rw [vle_antisymm h2 h1]
      · cases habs

theorem maxSatisfying_none_iff (c : List Version) (r : Range) :
    maxSatisfying c r = none ↔ ∀ v ∈ c, rangeSatisfies v r = false := by
  rw [maxSatisfying, msFold_eq_none]
  simp

/-- One (version, publish date) entry of a package's timeline; dates are
epoch instants compared numerically, as JavaScript Date values are. -/
structure VersionDate where
  version : Version
  date : Int
deriving DecidableEq, Repr

/-- Versions of the timeline entries published at or before the cutoff:
the candidate list built inside maxSatisfyingAtOrBefore. -/
def survivors (versionDates : List VersionDate) (atDate : Int) : List Version :=
  (versionDates.filter (fun vd => vd.date ≤ atDate)).map (·.version)

/-- Model of maxSatisfyingAtOrBefore (src/index.js lines 195-204): null on a
missing range or date, otherwise the maximum version published at or before
the date that satisfies the range.  A missing `Range` also stands for a range
string semver cannot parse, whose exception the source catches into null. -/
def maxSatisfyingAtOrBefore (versionDates : List VersionDate) (range : Option Range)
    (atDate : Option Int) : Option Version :=
  match range, atDate with
  | some r, some d =>
    let candidates := survivors versionDates d
    if candidates.isEmpty then none else maxSatisfying candidates r
  | _, _ => none

/-- Model of maxSatisfyingNow (src/index.js lines 206-213). -/
def maxSatisfyingNow (versions : List Version) (range : Option Range) : Option Version :=
  match range with
  | some r => if versions.isEmpty then none else maxSatisfying versions r
  | none => none

/-- Model of isExactPin (src/index.js lines 215-226), over raw strings: false
on a falsy or uncoercible range; if a coercible compromised version is given,
compare the coerced range against it, else true. -/
def isExactPin (range : String) (compromisedVersion : String) : Bool :=
  if range = "" then false
  else
    match coerce range with
    | none => false
    | some v =>
      if compromisedVersion ≠ "" then
        match coerce compromisedVersion with
        | some cv => v == cv
        | none => true
      else true

/-- Strict decimal numeral: nonempty, all digits, no leading zero. -/
def natStrict (s : String) : Option Nat :=
  if s.length = 0 then none
  else if s.data.all Char.isDigit then
    if 1 < s.length ∧ s.data.head? = some '0' then none else some (natOfDigits s.data)
  else none

/-- Strict `major.minor.patch` version literal. -/
def parseStrict (s : String) : Option Version :=
  match s.splitOn "." with
  | [a, b, c] =>
    match natStrict a, natStrict b, natStrict c with
    | some x, some y, some z => some ⟨x, y, z⟩
    | _, _, _ => none
  | _ => none

/-- Modelled fragment of node-semver's range grammar: an exact version or a
caret range; anything else is treated as unparseable (the source catches the
resulting exception and yields null/false). -/
def parseRange (s : String) : Option Range :=
  if s.startsWith "^" then (parseStrict (s.drop 1)).map Range.caret
  else (parseStrict s).map Range.exact

/-- Model of the satisfies helper (src/index.js lines 497-504). -/
def satisfies (version : String) (range : String) : Bool :=
  if version = "" ∨ range = "" then false
  else
    match coerce version, parseRange range with
    | some v, some r => rangeSatisfies v r
    | _, _ => false

/-- Stable insertion of one element into a comparator-sorted list: the new
element goes before the first element it strictly precedes, hence after any
element comparing equal, matching a stable Array.prototype.sort. -/
def insertCmp (cmp : α → α → Int) (x : α) : List α → List α
  | [] => [x]
  | y :: ys => if cmp x y < 0 then x :: y :: ys else y :: insertCmp cmp x ys

/-- Stable comparator sort modelling Array.prototype.sort (stable per the
ECMAScript specification). -/
def sortByCmp (cmp : α → α → Int) (l : List α) : List α :=
  l.foldl (fun acc x => insertCmp cmp x acc) []

theorem insertCmp_perm (cmp : α → α → Int) (x : α) (l : List α) :
    List.Perm (insertCmp cmp x l) (x :: l) := by
  induction l with
  | nil => rfl
  | cons y ys ih =>
    by_cases h : cmp x y < 0
    · simp [insertCmp, h]
    · simp only [insertCmp, h, if_false]
      exact (ih.cons y).trans (List.Perm.swap x y ys)

theorem insertCmp_mem (cmp : α → α → Int) (x a : α) (l : List α) :
    a ∈ insertCmp cmp x l ↔ a = x ∨ a ∈ l := by
  rw [(insertCmp_perm cmp x l).mem_iff]
  simp

theorem sortByCmp_fold_perm (cmp : α → α → Int) (l : List α) :
    ∀ acc, List.Perm (l.foldl (fun acc x => insertCmp cmp x acc) acc) (acc ++ l) := by
  induction l with
  | nil => simp
  | cons x xs ih =>
    intro acc
    rw [List.foldl_cons]
    refine (ih (insertCmp cmp x acc)).trans ?_
    refine (List.Perm.append_right xs (insertCmp_perm cmp x acc)).trans ?_
    exact List.perm_middle.symm

theorem sortByCmp_perm (cmp : α → α → Int) (l : List α) :
    List.Perm (sortByCmp cmp l) l := by
  simpa using sortByCmp_fold_perm cmp l []

theorem insertCmp_pairwise {cmp : α → α → Int} {P : α → Prop}
    (Hflip : ∀ a b, P a → P b → ¬ cmp a b < 0 → cmp b a ≤ 0)
    (Htrans : ∀ a b c, P a → P b → P c → cmp a b ≤ 0 → cmp b c ≤ 0 → cmp a c ≤ 0)
    {x : α} {l : List α} (hx : P x) (hl : ∀ y ∈ l, P y)
    (h : l.Pairwise (fun a b => cmp a b ≤ 0)) :
    (insertCmp cmp x l).Pairwise (fun a b => cmp a b ≤ 0) := by
  induction l with
  | nil => simp [insertCmp]
  | cons y ys ih =>
    have hy : P y := hl y (List.mem_cons_self y ys)
    have hys : ∀ z ∈ ys, P z := fun z hz => hl z (List.mem_cons_of_mem y hz)
    rcases List.pairwise_cons.mp h with ⟨hyall, hpw⟩
    by_cases hc : cmp x y < 0
    · simp only [insertCmp, hc, if_true]
      refine List.pairwise_cons.mpr ⟨?_, h⟩
      intro z hz
      rcases List.mem_cons.mp hz with hz | hz
      · subst hz; omega
      · exact Htrans x y z hx hy (hys z hz) (le_of_lt hc) (hyall z hz)
    · simp only [insertCmp, hc, if_false]
      refine List.pairwise_cons.mpr ⟨?_, ih hys hpw⟩
      intro z hz
      rcases (insertCmp_mem cmp x z ys).mp hz with hz | hz
      · rw [hz]
        exact Hflip x y hx hy hc
      · exact hyall z hz

theorem sortByCmp_pairwise (cmp : α → α → Int) (P : α → Prop)
    (Hflip : ∀ a b, P a → P b → ¬ cmp a b < 0 → cmp b a ≤ 0)
    (Htrans : ∀ a b c, P a → P b → P c → cmp a b ≤ 0 → cmp b c ≤ 0 → cmp a c ≤ 0)
    (l : List α) (hl : ∀ y ∈ l, P y) :
    (sortByCmp cmp l).Pairwise (fun a b => cmp a b ≤ 0) := by
  suffices haux : ∀ acc, (∀ y ∈ acc, P y) →
      acc.Pairwise (fun a b => cmp a b ≤ 0) →
      (∀ y ∈ l, P y) →
      (l.foldl (fun acc x => insertCmp cmp x acc) acc).Pairwise (fun a b => cmp a b ≤ 0) by
    exact haux [] (by simp) (by simp) hl
  clear hl
  induction l with
  | nil => intro acc _ hacc _; simpa using hacc
  | cons x xs ih =>
    intro acc haccP haccS hlP
    rw [List.foldl_cons]
    have hx : P x := hlP x (List.mem_cons_self x xs)
    refine ih (insertCmp cmp x acc) ?_ ?_ ?_
    · intro y hy
      rcases (insertCmp_mem cmp x y acc).mp hy with hy | hy
      · subst hy; exact hx
      · exact haccP y hy
    · exact insertCmp_pairwise Hflip Htrans hx haccP haccS
    · exact fun y hy => hlP y (List.mem_cons_of_mem x hy)

/-- Model of toDateSafe (src/index.js lines 161-169): the empty string is
falsy and rejected; otherwise JavaScript Date parsing — an external host
behaviour — is a parameter returning the epoch instant, or none when the
parsed date is invalid. -/
def toDateSafe (parseDate : String → Option Int) (s : String) : Option Int :=
  if s = "" then none else parseDate s

/-- First loop of listVersionDatesFromTimeMap: walk the raw time map in
insertion order, skipping the created/modified metadata keys, keys that do
not coerce to a semantic version, and entries whose timestamp fails to
parse to a valid date. -/
def rawTimeEntries (parseDate : String → Option Int) :
    List (String × String) → List VersionDate
  | [] => []
  | (k, s) :: rest =>
    if k = "created" ∨ k = "modified" then rawTimeEntries parseDate rest
    else
      match coerce k with
      | none => rawTimeEntries parseDate rest
      | some ver =>
        match toDateSafe parseDate s with
        | none => rawTimeEntries parseDate rest
        | some d => ⟨ver, d⟩ :: rawTimeEntries parseDate rest

/-- Second loop of listVersionDatesFromTimeMap: keep only the first entry
for each normalized version, threading the set of versions already seen. -/
def dedupByVersion : List VersionDate → List Version → List VersionDate
  | [], _ => []
  | e :: rest, seen =>
    if e.version ∈ seen then dedupByVersion rest seen
    else e :: dedupByVersion rest (e.version :: seen)

/-- Comparator of the final sort of listVersionDatesFromTimeMap: ascending
by publish date. -/
def dateCmp (a b : VersionDate) : Int := a.date - b.date

/-- Model of listVersionDatesFromTimeMap (src/index.js lines 171-193).  The
input is the raw time map as an ordered key/value list (Object.entries
order); none models a missing map. -/
def listVersionDatesFromTimeMap (parseDate : String → Option Int)
    (timeMap : Option (List (String × String))) : List VersionDate :=
  match timeMap with
  | none => []
  | some entries => sortByCmp dateCmp (dedupByVersion (rawTimeEntries parseDate entries) [])

theorem mem_dedupByVersion_not_seen {e : VersionDate} :
    ∀ {l : List VersionDate} {seen : List Version},
      e ∈ dedupByVersion l seen → e.version ∉ seen := by
  intro l
  induction l with
  | nil => intro seen h; simp [dedupByVersion] at h
  | cons x rest ih =>
    intro seen h
    by_cases hx : x.version ∈ seen
    · rw [dedupByVersion, if_pos hx] at h
      exact ih h
    · rw [dedupByVersion, if_neg hx] at h
      rcases List.mem_cons.mp h with h | h
      · subst h; exact hx
      · have := ih h
        intro hmem
        exact this (List.mem_cons_of_mem _ hmem)

theorem mem_dedupByVersion_find? {e : VersionDate} :
    ∀ {l : List VersionDate} {seen : List Version},
      e ∈ dedupByVersion l seen →
      l.find? (fun x => x.version == e.version) = some e := by
  intro l
  induction l with
  | nil => intro seen h; simp [dedupByVersion] at h
  | cons x rest ih =>
    intro seen h
    by_cases hx : x.version ∈ seen
    · rw [dedupByVersion, if_pos hx] at h
      have hne : e.version ≠ x.version := by
        intro heq
        exact mem_dedupByVersion_not_seen h (heq ▸ hx)
      rw [List.find?_cons_of_neg _ (by simpa using fun h' => hne h'.symm)]
      exact ih h
    · rw [dedupByVersion, if_neg hx] at h
      rcases List.mem_cons.mp h with h | h
      · subst h
        exact List.find?_cons_of_pos _ (by simp)
      · have hne : e.version ≠ x.version := by
          intro heq
          exact mem_dedupByVersion_not_seen h (heq ▸ List.mem_cons_self _ _)
        rw [List.find?_cons_of_neg _ (by simpa using fun h' => hne h'.symm)]
        exact ih h

theorem dedupByVersion_version_nodup :
    ∀ (l : List VersionDate) (seen : List Version),
      ((dedupByVersion l seen).map (·.version)).Nodup := by
  intro l
  induction l with
  | nil => intro seen; simp [dedupByVersion]
  | cons x rest ih =>
    intro seen
    by_cases hx : x.version ∈ seen
    · rw [dedupByVersion, if_pos hx]; exact ih seen
    · rw [dedupByVersion, if_neg hx]
      simp only [List.map_cons, List.nodup_cons]
      refine ⟨?_, ih (x.version :: seen)⟩
      intro hmem
      rcases List.mem_map.mp hmem with ⟨e, he, hev⟩
      exact mem_dedupByVersion_not_seen he (hev ▸ List.mem_cons_self _ _)

theorem rawTimeEntries_mem {parseDate : String → Option Int} {e : VersionDate} :
    ∀ {tm : List (String × String)}, e ∈ rawTimeEntries parseDate tm →
      ∃ k s, (k, s) ∈ tm ∧ k ≠ "created" ∧ k ≠ "modified" ∧
        coerce k = some e.version ∧ toDateSafe parseDate s = some e.date := by
  intro tm
  induction tm with
  | nil => intro h; simp [rawTimeEntries] at h
  | cons p rest ih =>
    obtain ⟨k, s⟩ := p
    intro h
    rw [rawTimeEntries] at h
    split at h
    · rcases ih h with ⟨k', s', hmem, h1, h2, h3, h4⟩
      exact ⟨k', s', List.mem_cons_of_mem _ hmem, h1, h2, h3, h4⟩
    · rename_i hks
      push_neg at hks
      cases hco : coerce k with
      | none =>
        rw [hco] at h
        rcases ih h with ⟨k', s', hmem, h1, h2, h3, h4⟩
        exact ⟨k', s', List.mem_cons_of_mem _ hmem, h1, h2, h3, h4⟩
      | some ver =>
        rw [hco] at h
        cases hdt : toDateSafe parseDate s with
        | none =>
          rw [hdt] at h
          rcases ih h with ⟨k', s', hmem, h1, h2, h3, h4⟩
          exact ⟨k', s', List.mem_cons_of_mem _ hmem, h1, h2, h3, h4⟩
        | some d =>
          rw [hdt] at h
          rcases List.mem_cons.mp h with h | h
          · subst h
            exact ⟨k, s, List.mem_cons_self _ _, hks.1, hks.2, hco, hdt⟩
          · rcases ih h with ⟨k', s', hmem, h1, h2, h3, h4⟩
            exact ⟨k', s', List.mem_cons_of_mem _ hmem, h1, h2, h3, h4⟩

/-- One HTTP attempt's outcome as seen by the retry loops: a connection-level
or timeout failure (fetch threw), or a response carrying a status code, an
optional numeric Retry-After header value and a body. -/
inductive Resp where
  | netErr (msg : String)
  | http (status : Nat) (retryAfter : Option Nat) (body : String)
deriving DecidableEq, Repr

/-- JavaScript res.ok: status in the 2xx range. -/
def isOkStatus (s : Nat) : Bool := decide (200 ≤ s) && decide (s ≤ 299)

/-- Observable result of the fetchJSON loop: a parsed body, a thrown error,
or the no-value outcome of falling off the end of the loop (the implicit
`return undefined`). -/
inductive JsonResult where
  | success (body : String)
  | failure (msg : String)
  | noValue
deriving DecidableEq, Repr

/-- Observable result of the fetchText loop, which never throws: returned
text (the empty string on exhausted retries) or the undefined no-value
outcome of falling off the end of the loop. -/
inductive TextResult where
  | text (s : String)
  | noValue
deriving DecidableEq, Repr

/-- Seconds waited before continuing after a 429: the Retry-After header
when it parses to a nonzero number (Number(null) and a zero header are
falsy), else the exponential fallback min(60, 2^attempt * 2). -/
def rateWaitSecs (retryAfter : Option Nat) (attempt : Nat) : Nat :=
  match retryAfter with
  | some n => if n = 0 then min 60 (2 ^ attempt * 2) else n
  | none => min 60 (2 ^ attempt * 2)

/-- The retry loop of fetchJSON (src/index.js lines 98-144), parameterized
by the response each attempt receives.  The first component is the outcome;
the second logs every delay in milliseconds.  The fuel argument counts the
loop iterations still permitted: the JavaScript loop runs while
attempt ≤ retries, and `continue` always executes the attempt++ update —
including after a 429 wait. -/
def fetchGo (sched : Nat → Resp) (retries : Nat) : Nat → Nat → JsonResult × List Nat
  | _, 0 => (.noValue, [])
  | attempt, fuel + 1 =>
    match sched attempt with
    | .netErr msg =>
      if attempt = retries then (.failure ("Fetch error: " ++ msg), [])
      else
        let rest := fetchGo sched retries (attempt + 1) fuel
        (rest.1, (attempt + 1) * 500 :: rest.2)
    | .http status ra body =>
      if status = 429 then
        let rest := fetchGo sched retries (attempt + 1) fuel
        (rest.1, rateWaitSecs ra attempt * 1000 :: rest.2)
      else if isOkStatus status then (.success body, [])
      else if attempt = retries then (.failure ("Fetch failed " ++ toString status), [])
      else
        let rest := fetchGo sched retries (attempt + 1) fuel
        (rest.1, (attempt + 1) * 500 :: rest.2)

/-- Model of fetchJSON (src/index.js lines 98-144). -/
def fetchJSON (sched : Nat → Resp) (retries : Nat) : JsonResult × List Nat :=
  fetchGo sched retries 0 (retries + 1)

/-- The retry loop of fetchText (src/index.js lines 385-417): identical
control flow, but exhausted retries return the empty string instead of
throwing. -/
def fetchTextGo (sched : Nat → Resp) (retries : Nat) : Nat → Nat → TextResult × List Nat
  | _, 0 => (.noValue, [])
  | attempt, fuel + 1 =>
    match sched attempt with
    | .netErr _ =>
      if attempt = retries then (.text "", [])
      else
        let rest := fetchTextGo sched retries (attempt + 1) fuel
        (rest.1, (attempt + 1) * 500 :: rest.2)
    | .http status ra body =>
      if status = 429 then
        let rest := fetchTextGo sched retries (attempt + 1) fuel
        (rest.1, rateWaitSecs ra attempt * 1000 :: rest.2)
      else if isOkStatus status then (.text body, [])
      else if attempt = retries then (.text "", [])
      else
        let rest := fetchTextGo sched retries (attempt + 1) fuel
        (rest.1, (attempt + 1) * 500 :: rest.2)

/-- Model of fetchText (src/index.js lines 385-417). -/
def fetchText (sched : Nat → Resp) (retries : Nat) : TextResult × List Nat :=
  fetchTextGo sched retries 0 (retries + 1)

/-- A response on which the loops return a value (a 2xx status). -/
def isSuccessResp (r : Resp) : Bool :=
  match r with
  | .http s _ _ => isOkStatus s
  | .netErr _ => false

/-- A rate-limit response. -/
def is429Resp (r : Resp) : Bool :=
  match r with
  | .http s _ _ => s = 429
  | .netErr _ => false

theorem fetchGo_noValue (sched : Nat → Resp) (retries : Nat) :
    ∀ fuel attempt, attempt + fuel = retries + 1 →
      (∀ j, attempt ≤ j → j < retries → isSuccessResp (sched j) = false) →
      is429Resp (sched retries) = true →
      (fetchGo sched retries attempt fuel).1 = .noValue := by
  intro fuel
  induction fuel with
  | zero => intro attempt _ _ _; rfl
  | succ fuel ih =>
    intro attempt hsum hns h429
    by_cases hat : attempt = retries
    · subst hat
      cases hresp : sched attempt with
      | netErr msg => rw [hresp] at h429; simp [is429Resp] at h429
      | http s ra b =>
        rw [hresp] at h429
        have hs : s = 429 := by simpa [is429Resp] using h429
        subst hs
        have : fuel = 0 := by omega
        subst this
        simp [fetchGo, hresp]
    · have hlt : attempt < retries := by omega
      have htail : ∀ j, attempt + 1 ≤ j → j < retries → isSuccessResp (sched j) = false :=
        fun j hj1 hj2 => hns j (by omega) hj2
      have hrec := ih (attempt + 1) (by omega) htail h429
      cases hresp : sched attempt with
      | netErr msg => simp [fetchGo, hresp, hat, hrec]
      | http s ra b =>
        by_cases hs : s = 429
        · subst hs
          simp [fetchGo, hresp, hrec]
        · have hok : isOkStatus s = false := by
            have := hns attempt (le_refl attempt) hlt
            rw [hresp] at this
            simpa [isSuccessResp] using this
          simp [fetchGo, hresp, hs, hok, hat, hrec]

theorem fetchTextGo_noValue (sched : Nat → Resp) (retries : Nat) :
    ∀ fuel attempt, attempt + fuel = retries + 1 →
      (∀ j, attempt ≤ j → j < retries → isSuccessResp (sched j) = false) →
      is429Resp (sched retries) = true →
      (fetchTextGo sched retries attempt fuel).1 = .noValue := by
  intro fuel
  induction fuel with
  | zero => intro attempt _ _ _; rfl
  | succ fuel ih =>
    intro attempt hsum hns h429
    by_cases hat : attempt = retries
    · subst hat
      cases hresp : sched attempt with
      | netErr msg => rw [hresp] at h429; simp [is429Resp] at h429
      | http s ra b =>
        rw [hresp] at h429
        have hs : s = 429 := by simpa [is429Resp] using h429
        subst hs
        have : fuel = 0 := by omega
        subst this
        simp [fetchTextGo, hresp]
    · have hlt : attempt < retries := by omega
      have htail : ∀ j, attempt + 1 ≤ j → j < retries → isSuccessResp (sched j) = false :=
        fun j hj1 hj2 => hns j (by omega) hj2
      have hrec := ih (attempt + 1) (by omega) htail h429
      cases hresp : sched attempt with
      | netErr msg => simp [fetchTextGo, hresp, hat, hrec]
      | http s ra b =>
        by_cases hs : s = 429
        · subst hs
          simp [fetchTextGo, hresp, hrec]
        · have hok : isOkStatus s = false := by
            have := hns attempt (le_refl attempt) hlt
            rw [hresp] at this
            simpa [isSuccessResp] using this
          simp [fetchTextGo, hresp, hs, hok, hat, hrec]

/-- One page returned by the npms.io search endpoint: the reported total
(data.total, none when absent) and the names of results[].package (the
empty string models a missing r.package?.name). -/
structure Page where
  total : Option Nat
  results : List String
deriving DecidableEq, Repr

/-- Running discovery state: the seen set and the provenance map, both in
insertion order, as JavaScript Set and Map preserve insertion order. -/
structure DiscState where
  seen : List String
  sources : List (String × String)
deriving DecidableEq, Repr

/-- The guarded insertion every discovery loop performs: add an unseen name
to the seen set, and record the current source tag when none is recorded. -/
def insertName (tag pkg : String) (st : DiscState) : DiscState :=
  if pkg ∈ st.seen then st
  else
    { seen := st.seen ++ [pkg],
      sources := if (st.sources.lookup pkg).isSome then st.sources
                 else st.sources ++ [(pkg, tag)] }

/-- Per-result loop of the primary (npms.io) stage: skip a missing name and
the target package itself, insert with the npms tag, and break once a
nonzero cap is reached. -/
def pageItems (selfName : String) (max : Nat) : List String → DiscState → DiscState
  | [], st => st
  | pkg :: rest, st =>
    if pkg = "" ∨ pkg = selfName then pageItems selfName max rest st
    else
      let st' := insertName "npms" pkg st
      if max ≠ 0 ∧ max ≤ st'.seen.length then st'
      else pageItems selfName max rest st'

/-- Fallback-stage loop, identical for the Libraries.io and scrape results:
guarded insertion with the stage tag, breaking at a nonzero cap. -/
def addLoop (tag : String) (max : Nat) : List String → DiscState → DiscState
  | [], st => st
  | pkg :: rest, st =>
    let st' := insertName tag pkg st
    if max ≠ 0 ∧ max ≤ st'.seen.length then st'
    else addLoop tag max rest st'

/-- JavaScript `n || Infinity`: none stands for Infinity. -/
def jsOrInf (n : Nat) : Option Nat := if n = 0 then none else some n

/-- Minimum of two possibly-infinite bounds. -/
def optMin : Option Nat → Option Nat → Option Nat
  | some a, some b => some (min a b)
  | some a, none => some a
  | none, b => b

/-- Whether a finite bound has been reached (never true of Infinity). -/
def geOpt (x : Nat) : Option Nat → Bool
  | some b => decide (b ≤ x)
  | none => false

/-- Outer break condition of a primary pagination loop after a page: the
offset reached min(data.total || Infinity, max || Infinity), or a nonzero
cap is reached. -/
def primaryBreak (total : Option Nat) (max : Nat) (frm : Nat) (st : DiscState) : Bool :=
  geOpt frm (optMin (total.bind jsOrInf) (jsOrInf max)) ||
    (decide (max ≠ 0) && decide (max ≤ st.seen.length))

/-- Pagination loop of one qualifier of the primary stage, over the schedule
of pages the search endpoint would return: none models a page fetch that
threw, which breaks this qualifier's pagination; an exhausted schedule
models the zero-results page that also breaks it. -/
def primaryQualLoop (selfName : String) (max : Nat) :
    List (Option Page) → Nat → DiscState → DiscState
  | [], _, st => st
  | none :: _, _, st => st
  | some page :: rest, frm, st =>
    if page.results.length = 0 then st
    else
      let st' := pageItems selfName max page.results st
      let frm' := frm + page.results.length
      if primaryBreak page.total max frm' st' then st'
      else primaryQualLoop selfName max rest frm' st'

/-- Qualifier schedules of the primary stage in source order: dependencies
always, devDependencies when includeDev, peerDependencies when includePeer. -/
def qualifierPages (includeDev includePeer : Bool)
    (pDeps pDev pPeer : List (Option Page)) : List (List (Option Page)) :=
  [pDeps] ++ (if includeDev then [pDev] else []) ++ (if includePeer then [pPeer] else [])

/-- The primary (npms.io) stage of fetchAllDependents: one sequential
pagination loop per qualifier over the shared state. -/
def primaryStage (selfName : String) (max : Nat)
    (qp : List (List (Option Page))) (st0 : DiscState) : DiscState :=
  qp.foldl (fun st pages => primaryQualLoop selfName max pages 0 st) st0

/-- Discovery state after the primary stage, from the empty state. -/
def afterPrimary (selfName : String) (includeDev includePeer : Bool) (max : Nat)
    (pDeps pDev pPeer : List (Option Page)) : DiscState :=
  primaryStage selfName max (qualifierPages includeDev includePeer pDeps pDev pPeer) ⟨[], []⟩

/-- Gate of both fallback stages (src/index.js lines 288 and 311): run only
when not disabled and the seen set is still empty or below a nonzero cap. -/
def fallbackGate (disabled : Bool) (max : Nat) (st : DiscState) : Bool :=
  !disabled && (decide (st.seen.length = 0) ||
    (decide (max ≠ 0) && decide (st.seen.length < max)))

/-- Discovery state after the Libraries.io fallback; the stage's fetcher
either yields names or throws, and a thrown error is caught leaving the
state unchanged. -/
def afterLibraries (selfName : String) (includeDev includePeer : Bool) (max : Nat)
    (pDeps pDev pPeer : List (Option Page)) (noLibraries : Bool)
    (libResult : Except String (List String)) : DiscState :=
  let st1 := afterPrimary selfName includeDev includePeer max pDeps pDev pPeer
  if fallbackGate noLibraries max st1 then
    match libResult with
    | .ok more => addLoop "libraries" max more st1
    | .error _ => st1
  else st1

/-- Final discovery state of fetchAllDependents (src/index.js lines 236-328),
parameterized by what every stage's network interaction returns. -/
def fetchAllDependentsState (selfName : String) (includeDev includePeer : Bool)
    (max : Nat) (pDeps pDev pPeer : List (Option Page)) (noLibraries : Bool)
    (libResult : Except String (List String)) (noScrape : Bool)
    (scrapeResult : List String) : DiscState :=
  let st2 := afterLibraries selfName includeDev includePeer max pDeps pDev pPeer
    noLibraries libResult
  if fallbackGate noScrape max st2 then addLoop "scraped" max scrapeResult st2
  else st2

/-- Return shape of fetchAllDependents: the names in insertion order, the
per-stage counters (each stage's counter accumulates exactly the number of
names it inserted, i.e. the growth of the seen set across that stage), and
the provenance map. -/
structure DiscoveryResult where
  names : List String
  statsNpms : Nat
  statsLibraries : Nat
  statsScraped : Nat
  sources : List (String × String)
deriving DecidableEq, Repr

/-- Model of fetchAllDependents' returned record. -/
def fetchAllDependents (selfName : String) (includeDev includePeer : Bool)
    (max : Nat) (pDeps pDev pPeer : List (Option Page)) (noLibraries : Bool)
    (libResult : Except String (List String)) (noScrape : Bool)
    (scrapeResult : List String) : DiscoveryResult :=
  let st1 := afterPrimary selfName includeDev includePeer max pDeps pDev pPeer
  let st2 := afterLibraries selfName includeDev includePeer max pDeps pDev pPeer
    noLibraries libResult
  let st3 := fetchAllDependentsState selfName includeDev includePeer max
    pDeps pDev pPeer noLibraries libResult noScrape scrapeResult
  ⟨st3.seen, st1.seen.length, st2.seen.length - st1.seen.length,
    st3.seen.length - st2.seen.length, st3.sources⟩

/-- Invariant of the discovery state: the seen set has no duplicates and the
provenance map has exactly the seen names as keys. -/
def DiscInv (st : DiscState) : Prop :=
  st.seen.Nodup ∧ ∀ n, (st.sources.lookup n).isSome ↔ n ∈ st.seen

theorem lookup_cons_eq (k p v : String) (t : List (String × String)) :
    List.lookup k ((p, v) :: t) = if (k == p) = true then some v else List.lookup k t := by
  by_cases h : (k == p) = true
  · simp [List.lookup, h]
  · have hb : (k == p) = false := by simpa using h
    simp [List.lookup, hb, h]

theorem lookup_append_some {l1 l2 : List (String × String)} {k v : String}
    (h : List.lookup k l1 = some v) : List.lookup k (l1 ++ l2) = some v := by
  induction l1 with
  | nil => simp at h
  | cons p t ih =>
    obtain ⟨a, b⟩ := p
    rw [List.cons_append, lookup_cons_eq]
    rw [lookup_cons_eq] at h
    split at h
    · rename_i hk; simp [hk, h]
    · rename_i hk
      simp only [hk, if_false]
      exact ih h

theorem lookup_append_none {l1 l2 : List (String × String)} {k : String}
    (h : List.lookup k l1 = none) : List.lookup k (l1 ++ l2) = List.lookup k l2 := by
  induction l1 with
  | nil => rfl
  | cons p t ih =>
    obtain ⟨a, b⟩ := p
    rw [List.cons_append, lookup_cons_eq]
    rw [lookup_cons_eq] at h
    split at h
    · cases h
    · rename_i hk
      simp only [hk, if_false]
      exact ih h

theorem insertName_mem_iff (tag pkg : String) (st : DiscState) (n : String) :
    n ∈ (insertName tag pkg st).seen ↔ n ∈ st.seen ∨ n = pkg := by
  rw [insertName]
  by_cases hc : pkg ∈ st.seen
  · simp only [hc, if_true]
    constructor
    · exact Or.inl
    · rintro (h | h)
      · exact h
      · subst h; exact hc
  · simp only [hc, if_false]
    simp

theorem insertName_lookup_pres (tag pkg : String) (st : DiscState) {n : String}
    (h : n ∈ st.seen) :
    List.lookup n (insertName tag pkg st).sources = List.lookup n st.sources := by
  rw [insertName]
  by_cases hc : pkg ∈ st.seen
  · simp [hc]
  · simp only [hc, if_false]
    have hne : n ≠ pkg := fun he => hc (he ▸ h)
    by_cases hls : (List.lookup pkg st.sources).isSome
    · simp [hls]
    · have hls' : (List.lookup pkg st.sources).isSome = false := by
        rwa [Bool.not_eq_true] at hls
      simp only [hls', Bool.false_eq_true, if_false]
      cases hn : List.lookup n st.sources with
      | some v => exact lookup_append_some hn
      | none =>
        rw [lookup_append_none hn, lookup_cons_eq]
        have hb : (n == pkg) = false := by simpa using hne
        simp [hb]

theorem insertName_inv (tag pkg : String) (st : DiscState) (h : DiscInv st) :
    DiscInv (insertName tag pkg st) := by
  obtain ⟨hnd, hlk⟩ := h
  rw [insertName]
  by_cases hc : pkg ∈ st.seen
  · simp only [hc, if_true]
    exact ⟨hnd, hlk⟩
  · simp only [hc, if_false]
    have hlpkg : List.lookup pkg st.sources = none := by
      cases hl : List.lookup pkg st.sources with
      | none => rfl
      | some v => exact absurd ((hlk pkg).mp (by simp [hl])) hc
    simp only [hlpkg, Option.isSome_none, Bool.false_eq_true, if_false]
    constructor
    · simp [List.nodup_append, hnd, hc]
    · intro n
      by_cases hn : n = pkg
      · subst hn
        rw [lookup_append_none hlpkg, lookup_cons_eq]
        simp
      · cases hln : List.lookup n st.sources with
        | some v =>
          rw [lookup_append_some hln]
          have := (hlk n).mp (by simp [hln])
          simp [this]
        | none =>
          rw [lookup_append_none hln, lookup_cons_eq]
          have hnm : n ∉ st.seen := fun hm => by
            have := (hlk n).mpr hm
            rw [hln] at this
            cases this
          have hb : (n == pkg) = false := by simpa using hn
          simp [hb, hn, hnm]

theorem insertName_new_tag {tag pkg : String} {st : DiscState} {n : String}
    (hInv : DiscInv st) (hn : n ∈ (insertName tag pkg st).seen) (hnot : n ∉ st.seen) :
    List.lookup n (insertName tag pkg st).sources = some tag := by
  obtain ⟨_, hlk⟩ := hInv
  rw [insertName] at hn ⊢
  by_cases hc : pkg ∈ st.seen
  · simp only [hc, if_true] at hn
    exact absurd hn hnot
  · simp only [hc, if_false] at hn ⊢
    have hnp : n = pkg := by
      rcases List.mem_append.mp hn with h | h
      · exact absurd h hnot
      · simpa using h
    subst hnp
    have hlpkg : List.lookup n st.sources = none := by
      cases hl : List.lookup n st.sources with
      | none => rfl
      | some v => exact absurd ((hlk n).mp (by simp [hl])) hnot
    simp only [hlpkg, Option.isSome_none, Bool.false_eq_true, if_false]
    rw [lookup_append_none hlpkg, lookup_cons_eq]
    simp

theorem pageItems_inv (selfName : String) (max : Nat) :
    ∀ (l : List String) (st : DiscState), DiscInv st →
      DiscInv (pageItems selfName max l st) := by
  intro l
  induction l with
  | nil => intro st h; exact h
  | cons pkg rest ih =>
    intro st h
    by_cases hskip : pkg = "" ∨ pkg = selfName
    · rw [pageItems, if_pos hskip]
      exact ih st h
    · rw [pageItems, if_neg hskip]
      dsimp only
      have h' := insertName_inv "npms" pkg st h
      by_cases hbrk : max ≠ 0 ∧ max ≤ (insertName "npms" pkg st).seen.length
      · rw [if_pos hbrk]
        exact h'
      · rw [if_neg hbrk]
        exact ih _ h'

theorem pageItems_pres (selfName : String) (max : Nat) :
    ∀ (l : List String) (st : DiscState) (n : String), n ∈ st.seen →
      n ∈ (pageItems selfName max l st).seen ∧
      List.lookup n (pageItems selfName max l st).sources = List.lookup n st.sources := by
  intro l
  induction l with
  | nil => intro st n h; exact ⟨h, rfl⟩
  | cons pkg rest ih =>
    intro st n h
    by_cases hskip : pkg = "" ∨ pkg = selfName
    · rw [pageItems, if_pos hskip]
      exact ih st n h
    · rw [pageItems, if_neg hskip]
      dsimp only
      have hmem : n ∈ (insertName "npms" pkg st).seen :=
        (insertName_mem_iff "npms" pkg st n).mpr (Or.inl h)
      have hlk := insertName_lookup_pres "npms" pkg st h
      by_cases hbrk : max ≠ 0 ∧ max ≤ (insertName "npms" pkg st).seen.length
      · rw [if_pos hbrk]
        exact ⟨hmem, hlk⟩
      · rw [if_neg hbrk]
        obtain ⟨h1, h2⟩ := ih (insertName "npms" pkg st) n hmem
        exact ⟨h1, h2.trans hlk⟩

theorem pageItems_new (selfName : String) (max : Nat) :
    ∀ (l : List String) (st : DiscState) (n : String), DiscInv st →
      n ∈ (pageItems selfName max l st).seen → n ∉ st.seen →
      List.lookup n (pageItems selfName max l st).sources = some "npms" := by
  intro l
  induction l with
  | nil => intro st n _ hmem hnot; exact absurd hmem hnot
  | cons pkg rest ih =>
    intro st n hInv hmem hnot
    by_cases hskip : pkg = "" ∨ pkg = selfName
    · rw [pageItems, if_pos hskip] at hmem ⊢
      exact ih st n hInv hmem hnot
    · rw [pageItems, if_neg hskip] at hmem ⊢
      dsimp only at hmem ⊢
      have hInv' := insertName_inv "npms" pkg st hInv
      by_cases hbrk : max ≠ 0 ∧ max ≤ (insertName "npms" pkg st).seen.length
      · rw [if_pos hbrk] at hmem ⊢
        exact insertName_new_tag hInv hmem hnot
      · rw [if_neg hbrk] at hmem ⊢
        by_cases hn' : n ∈ (insertName "npms" pkg st).seen
        · have htag := insertName_new_tag hInv hn' hnot
          have hp := (pageItems_pres selfName max rest (insertName "npms" pkg st) n hn').2
          rw [hp, htag]
        · exact ih _ n hInv' hmem hn'

theorem addLoop_inv (tag : String) (max : Nat) :
    ∀ (l : List String) (st : DiscState), DiscInv st →
      DiscInv (addLoop tag max l st) := by
  intro l
  induction l with
  | nil => intro st h; exact h
  | cons pkg rest ih =>
    intro st h
    rw [addLoop]
    have h' := insertName_inv tag pkg st h
    by_cases hbrk : max ≠ 0 ∧ max ≤ (insertName tag pkg st).seen.length
    · rw [if_pos hbrk]
      exact h'
    · rw [if_neg hbrk]
      exact ih _ h'

theorem addLoop_pres (tag : String) (max : Nat) :
    ∀ (l : List String) (st : DiscState) (n : String), n ∈ st.seen →
      n ∈ (addLoop tag max l st).seen ∧
      List.lookup n (addLoop tag max l st).sources = List.lookup n st.sources := by
  intro l
  induction l with
  | nil => intro st n h; exact ⟨h, rfl⟩
  | cons pkg rest ih =>
    intro st n h
    rw [addLoop]
    have hmem : n ∈ (insertName tag pkg st).seen :=
      (insertName_mem_iff tag pkg st n).mpr (Or.inl h)
    have hlk := insertName_lookup_pres tag pkg st h
    by_cases hbrk : max ≠ 0 ∧ max ≤ (insertName tag pkg st).seen.length
    · rw [if_pos hbrk]
      exact ⟨hmem, hlk⟩
    · rw [if_neg hbrk]
      obtain ⟨h1, h2⟩ := ih (insertName tag pkg st) n hmem
      exact ⟨h1, h2.trans hlk⟩

theorem addLoop_new (tag : String) (max : Nat) :
    ∀ (l : List String) (st : DiscState) (n : String), DiscInv st →
      n ∈ (addLoop tag max l st).seen → n ∉ st.seen →
      List.lookup n (addLoop tag max l st).sources = some tag := by
  intro l
  induction l with
  | nil => intro st n _ hmem hnot; exact absurd hmem hnot
  | cons pkg rest ih =>
    intro st n hInv hmem hnot
    rw [addLoop] at hmem ⊢
    have hInv' := insertName_inv tag pkg st hInv
    by_cases hbrk : max ≠ 0 ∧ max ≤ (insertName tag pkg st).seen.length
    · rw [if_pos hbrk] at hmem ⊢
      exact insertName_new_tag hInv hmem hnot
    · rw [if_neg hbrk] at hmem ⊢
      by_cases hn' : n ∈ (insertName tag pkg st).seen
      · have htag := insertName_new_tag hInv hn' hnot
        have hp := (addLoop_pres tag max rest (insertName tag pkg st) n hn').2
        rw [hp, htag]
      · exact ih _ n hInv' hmem hn'

theorem primaryQualLoop_inv (selfName : String) (max : Nat) :
    ∀ (pages : List (Option Page)) (frm : Nat) (st : DiscState), DiscInv st →
      DiscInv (primaryQualLoop selfName max pages frm st) := by
  intro pages
  induction pages with
  | nil => intro frm st h; exact h
  | cons pg rest ih =>
    intro frm st h
    cases pg with
    | none => exact h
    | some page =>
      by_cases hz : page.results.length = 0
      · rw [primaryQualLoop, if_pos hz]
        exact h
      · rw [primaryQualLoop, if_neg hz]
        dsimp only
        have h' := pageItems_inv selfName max page.results st h
        by_cases hbrk : primaryBreak page.total max (frm + page.results.length)
            (pageItems selfName max page.results st) = true
        · rw [if_pos hbrk]
          exact h'
        · rw [if_neg hbrk]
          exact ih _ _ h'

theorem primaryQualLoop_pres (selfName : String) (max : Nat) :
    ∀ (pages : List (Option Page)) (frm : Nat) (st : DiscState) (n : String),
      n ∈ st.seen →
      n ∈ (primaryQualLoop selfName max pages frm st).seen ∧
      List.lookup n (primaryQualLoop selfName max pages frm st).sources =
        List.lookup n st.sources := by
  intro pages
  induction pages with
  | nil => intro frm st n h; exact ⟨h, rfl⟩
  | cons pg rest ih =>
    intro frm st n h
    cases pg with
    | none => exact ⟨h, rfl⟩
    | some page =>
      by_cases hz : page.results.length = 0
      · rw [primaryQualLoop, if_pos hz]
        exact ⟨h, rfl⟩
      · rw [primaryQualLoop, if_neg hz]
        dsimp only
        obtain ⟨h1, h2⟩ := pageItems_pres selfName max page.results st n h
        by_cases hbrk : primaryBreak page.total max (frm + page.results.length)
            (pageItems selfName max page.results st) = true
        · rw [if_pos hbrk]
          exact ⟨h1, h2⟩
        · rw [if_neg hbrk]
          obtain ⟨h3, h4⟩ := ih _ (pageItems selfName max page.results st) n h1
          exact ⟨h3, h4.trans h2⟩

theorem primaryQualLoop_new (selfName : String) (max : Nat) :
    ∀ (pages : List (Option Page)) (frm : Nat) (st : DiscState) (n : String),
      DiscInv st →
      n ∈ (primaryQualLoop selfName max pages frm st).seen → n ∉ st.seen →
      List.lookup n (primaryQualLoop selfName max pages frm st).sources = some "npms" := by
  intro pages
  induction pages with
  | nil => intro frm st n _ hmem hnot; exact absurd hmem hnot
  | cons pg rest ih =>
    intro frm st n hInv hmem hnot
    cases pg with
    | none => exact absurd hmem hnot
    | some page =>
      by_cases hz : page.results.length = 0
      · rw [primaryQualLoop, if_pos hz] at hmem ⊢
        exact absurd hmem hnot
      · rw [primaryQualLoop, if_neg hz] at hmem ⊢
        dsimp only at hmem ⊢
        have hInv' := pageItems_inv selfName max page.results st hInv
        by_cases hbrk : primaryBreak page.total max (frm + page.results.length)
            (pageItems selfName max page.results st) = true
        · rw [if_pos hbrk] at hmem ⊢
          exact pageItems_new selfName max page.results st n hInv hmem hnot
        · rw [if_neg hbrk] at hmem ⊢
          by_cases hn' : n ∈ (pageItems selfName max page.results st).seen
          · have htag := pageItems_new selfName max page.results st n hInv hn' hnot
            have hp := (primaryQualLoop_pres selfName max rest
              (frm + page.results.length)
              (pageItems selfName max page.results st) n hn').2
            rw [hp, htag]
          · exact ih _ _ n hInv' hmem hn'

theorem primaryStage_inv (selfName : String) (max : Nat) :
    ∀ (qp : List (List (Option Page))) (st : DiscState), DiscInv st →
      DiscInv (primaryStage selfName max qp st) := by
  intro qp
  induction qp with
  | nil => intro st h; exact h
  | cons pages rest ih =>
    intro st h
    rw [primaryStage, List.foldl_cons]
    exact ih _ (primaryQualLoop_inv selfName max pages 0 st h)

theorem primaryStage_pres (selfName : String) (max : Nat) :
    ∀ (qp : List (List (Option Page))) (st : DiscState) (n : String), n ∈ st.seen →
      n ∈ (primaryStage selfName max qp st).seen ∧
      List.lookup n (primaryStage selfName max qp st).sources =
        List.lookup n st.sources := by
  intro qp
  induction qp with
  | nil => intro st n h; exact ⟨h, rfl⟩
  | cons pages rest ih =>
    intro st n h
    rw [primaryStage, List.foldl_cons]
    obtain ⟨h1, h2⟩ := primaryQualLoop_pres selfName max pages 0 st n h
    obtain ⟨h3, h4⟩ := ih (primaryQualLoop selfName max pages 0 st) n h1
    rw [primaryStage] at h3 h4
    exact ⟨h3, h4.trans h2⟩

theorem primaryStage_new (selfName : String) (max : Nat) :
    ∀ (qp : List (List (Option Page))) (st : DiscState) (n : String), DiscInv st →
      n ∈ (primaryStage selfName max qp st).seen → n ∉ st.seen →
      List.lookup n (primaryStage selfName max qp st).sources = some "npms" := by
  intro qp
  induction qp with
  | nil => intro st n _ hmem hnot; exact absurd hmem hnot
  | cons pages rest ih =>
    intro st n hInv hmem hnot
    rw [primaryStage, List.foldl_cons] at hmem ⊢
    have hInv' := primaryQualLoop_inv selfName max pages 0 st hInv
    by_cases hn' : n ∈ (primaryQualLoop selfName max pages 0 st).seen
    · have htag := primaryQualLoop_new selfName max pages 0 st n hInv hn' hnot
      have hpres := primaryStage_pres selfName max rest
        (primaryQualLoop selfName max pages 0 st) n hn'
      rw [primaryStage] at hpres
      rw [hpres.2, htag]
    · have hres := ih (primaryQualLoop selfName max pages 0 st) n hInv' (by
        rw [primaryStage]; exact hmem) hn'
      rw [primaryStage] at hres
      exact hres

/-- A version's manifest: the three dependency sections as ordered key/value
maps (absent sections are empty maps). -/
structure Manifest where
  dependencies : List (String × String)
  peerDependencies : List (String × String)
  devDependencies : List (String × String)
deriving DecidableEq, Repr

/-- A dependent's registry document as findDependencyRange and the pipeline
read it: dist-tags, the versions map of manifests, and the time map. -/
structure DepMeta where
  distTags : List (String × String)
  versions : List (String × Manifest)
  time : List (String × String)
deriving DecidableEq, Repr

/-- JavaScript truthy property read m?.[k]: none for a missing key, and the
empty-string value collapses to none exactly where the source applies a
truthiness guard to the value. -/
def lookupTruthy (m : List (String × String)) (k : String) : Option String :=
  match List.lookup k m with
  | some v => if v = "" then none else some v
  | none => none

/-- The three-way priority check applied to one manifest, identical at the
latest version and in the historical scan (src/index.js lines 425-449 and
462-486): regular dependencies first, then peerDependencies when enabled,
then devDependencies when enabled; the result is (range, dependency type,
isDev) of the first section declaring the target. -/
def checkManifest (man : Manifest) (target : String) (includeDev includePeer : Bool) :
    Option (String × String × Bool) :=
  match lookupTruthy man.dependencies target with
  | some r => some (r, "dep", false)
  | none =>
    match (if includePeer then lookupTruthy man.peerDependencies target else none) with
    | some r => some (r, "peer", false)
    | none =>
      match (if includeDev then lookupTruthy man.devDependencies target else none) with
      | some r => some (r, "dev", true)
      | none => none

/-- pkgMeta['dist-tags']?.latest, with the truthiness guard every use site
applies (latestTag && …, latestTag || null, latestTag || ''). -/
def latestTagOf (meta : DepMeta) : Option String := lookupTruthy meta.distTags "latest"

/-- The latest-tagged manifest: versions[latestTag] when the tag is truthy. -/
def latestManifest (meta : DepMeta) : Option Manifest :=
  (latestTagOf meta).bind (fun t => List.lookup t meta.versions)

/-- Comparator of the historical scan: semver.rcompare on the coerced keys
(descending precedence), and 0 when either key fails to coerce — the thrown
comparison error is caught and reported as a tie. -/
def versionKeyCmp (a b : String) : Int :=
  match coerce a, coerce b with
  | some va, some vb => vcompare vb va
  | _, _ => 0

/-- Result record of findDependencyRange. -/
structure DepFind where
  range : Option String
  latestVersion : Option String
  isDev : Bool
  dependencyType : Option String
  matchedVersion : String
deriving DecidableEq, Repr

/-- The historical scan of findDependencyRange: visit the version keys in
descending coerced precedence and return the first manifest hit, together
with the version key it was found in. -/
def scanHit (meta : DepMeta) (target : String) (includeDev includePeer : Bool) :
    Option (String × String × String × Bool) :=
  (sortByCmp versionKeyCmp (meta.versions.map (·.1))).findSome? (fun k =>
    match List.lookup k meta.versions with
    | none => none
    | some man => (checkManifest man target includeDev includePeer).map
        (fun rtd => (k, rtd.1, rtd.2.1, rtd.2.2)))

/-- Model of findDependencyRange (src/index.js lines 419-495): the latest
manifest first, then the historical scan, and the null declaration as the
non-error final fallback. -/
def findDependencyRange (meta : DepMeta) (target : String)
    (includeDev includePeer : Bool) : DepFind :=
  let lt := latestTagOf meta
  match (latestManifest meta).bind
      (fun man => checkManifest man target includeDev includePeer) with
  | some rtd => ⟨some rtd.1, lt, rtd.2.2, some rtd.2.1, lt.getD ""⟩
  | none =>
    match scanHit meta target includeDev includePeer with
    | some krtd => ⟨some krtd.2.1, lt, krtd.2.2.2, some krtd.2.2.1, krtd.1⟩
    | none => ⟨none, lt, false, none, ""⟩

theorem versionKeyCmp_le_iff {a b : String} {va vb : Version}
    (ha : coerce a = some va) (hb : coerce b = some vb) :
    (versionKeyCmp a b ≤ 0 ↔ vle vb va = true) := by
  rw [versionKeyCmp, ha, hb]
  by_cases h1 : vlt vb va = true
  · have h2 := vlt_asymm h1
    simp [vcompare, h1, h2, vlt_to_vle h1]
  · by_cases h2 : vlt va vb = true
    · have hnle : vle vb va = false := by
        rw [vle]
        simp [h2]
      simp [vcompare, h1, h2, hnle]
    · have hle : vle vb va = true := vlt_total (by simpa using h2)
      simp [vcompare, h1, h2, hle]

theorem versionKeyCmp_lt_iff {a b : String} {va vb : Version}
    (ha : coerce a = some va) (hb : coerce b = some vb) :
    (versionKeyCmp a b < 0 ↔ vlt vb va = true) := by
  rw [versionKeyCmp, ha, hb]
  by_cases h1 : vlt vb va = true
  · simp [vcompare, h1]
  · by_cases h2 : vlt va vb = true
    · simp [vcompare, h1, h2]
    · simp [vcompare, h1, h2]

/-- One output record with the fields the source emits; optional values stay
options here (the CSV layer writes the empty string for an absent value). -/
structure Row where
  source_package : String
  source_version : String
  dependent : String
  dependent_version_range : String
  dependent_latest_version : String
  last_update : String
  dependent_matched_version : String
  dependency_type : String
  is_dev_dependency : Bool
  source_version_satisfies : Bool
  dependent_source : String
  compromised_published_at : String
  dependent_version_published_at : String
  resolved_at_dependent_release : Option Version
  resolved_now : Option Version
  likely_impacted_at_release : Bool
  still_impacted_now : Bool
  uses_exact_pin : Bool
  error : Option String
deriving DecidableEq, Repr

/-- The degraded record the catch block emits for a failed dependent
(src/index.js lines 598-620): empty declaration fields, false impact flags
and the error text. -/
def errorRow (targetName targetVersion dep : String) (src : Option String)
    (msg : String) : Row :=
  { source_package := targetName,
    source_version := targetVersion,
    dependent := dep,
    dependent_version_range := "",
    dependent_latest_version := "",
    last_update := "",
    dependent_matched_version := "",
    dependency_type := "",
    is_dev_dependency := false,
    source_version_satisfies := false,
    dependent_source := src.getD "",
    compromised_published_at := "",
    dependent_version_published_at := "",
    resolved_at_dependent_release := none,
    resolved_now := none,
    likely_impacted_at_release := false,
    still_impacted_now := false,
    uses_exact_pin := false,
    error := some msg }

/-- The impact comparison !!(resolved && compromised && semver.eq(coerce
resolved, coerce compromised)): false when either operand is missing, the
coerced equality when both coerce, and the semver.eq TypeError — caught by
the surrounding handler — when a present compromised version fails to
coerce. -/
def impactEq (resolved : Option Version) (compromised : String) :
    Except String Bool :=
  match resolved with
  | none => .ok false
  | some rv =>
    if compromised = "" then .ok false
    else
      match coerce compromised with
      | some cv => .ok (rv == cv)
      | none => .error ("Invalid Version: " ++ compromised)

/-- Model of extractLastUpdate (src/index.js lines 155-159): time.modified
|| time.created || null. -/
def extractLastUpdate (time : List (String × String)) : Option String :=
  match lookupTruthy time "modified" with
  | some v => some v
  | none => lookupTruthy time "created"

/-- JavaScript a || b on strings. -/
def jsOr (a b : String) : String := if a = "" then b else a

/-- Tail of the per-dependent task after the blast-radius values are known:
the two impact comparisons (whose semver.eq error routes to the degraded
record) and the emitted record (src/index.js lines 567-597). -/
def finishRow (targetName targetVersion compromisedPublishedAt dependentPublishedAt : String)
    (fd : DepFind) (lastUpdate : Option String) (src : Option String) (dep : String)
    (resolvedAtRelease resolvedNow : Option Version) : Row :=
  match impactEq resolvedAtRelease targetVersion with
  | .error e => errorRow targetName targetVersion dep src e
  | .ok likely =>
    match impactEq resolvedNow targetVersion with
    | .error e => errorRow targetName targetVersion dep src e
    | .ok still =>
      { source_package := targetName,
        source_version := targetVersion,
        dependent := dep,
        dependent_version_range := fd.range.getD "",
        dependent_latest_version := fd.latestVersion.getD "",
        last_update := lastUpdate.getD "",
        dependent_matched_version := fd.matchedVersion,
        dependency_type := fd.dependencyType.getD "",
        is_dev_dependency := fd.isDev,
        source_version_satisfies :=
          (match fd.range with
           | some r => satisfies targetVersion r
           | none => false),
        dependent_source := src.getD "",
        compromised_published_at := compromisedPublishedAt,
        dependent_version_published_at := dependentPublishedAt,
        resolved_at_dependent_release := resolvedAtRelease,
        resolved_now := resolvedNow,
        likely_impacted_at_release := likely,
        still_impacted_now := still,
        uses_exact_pin := isExactPin (fd.range.getD "") targetVersion,
        error := none }

/-- The per-dependent task body of processPackage (src/index.js lines
545-630): the dependent's metadata fetch outcome is a parameter; locate the
declaration, resolve the blast radius, and produce exactly one record — the
catch branch yields the degraded record both for a fetch failure and for a
semver.eq error on an uncoercible compromised version. -/
def processDependent (targetName targetVersion compromisedPublishedAt : String)
    (targetVersionDates : List VersionDate) (targetAllVersions : List Version)
    (includeDev includePeer : Bool) (parseDate : String → Option Int)
    (src : Option String) (dep : String)
    (fetchResult : Except String DepMeta) : Row :=
  match fetchResult with
  | .error e => errorRow targetName targetVersion dep src e
  | .ok meta =>
    let fd := findDependencyRange meta targetName includeDev includePeer
    let lastUpdate := extractLastUpdate meta.time
    let depVersionToUse := jsOr fd.matchedVersion (fd.latestVersion.getD "")
    let dependentPublishedAt :=
      if depVersionToUse ≠ "" then (List.lookup depVersionToUse meta.time).getD "" else ""
    let resolvedAtRelease :=
      match fd.range with
      | some r =>
        if depVersionToUse ≠ "" ∧ targetVersionDates.length ≠ 0 then
          maxSatisfyingAtOrBefore targetVersionDates (parseRange r)
            (toDateSafe parseDate dependentPublishedAt)
        else none
      | none => none
    let resolvedNow :=
      match fd.range with
      | some r =>
        if targetAllVersions.length ≠ 0 then
          maxSatisfyingNow targetAllVersions (parseRange r)
        else none
      | none => none
    finishRow targetName targetVersion compromisedPublishedAt dependentPublishedAt
      fd lastUpdate src dep resolvedAtRelease resolvedNow

/-- The batch over all discovered dependents (the Promise.all of bounded
per-dependent tasks): one record per dependent, each computed from that
dependent's own fetch outcome alone. -/
def processBatch (targetName targetVersion compromisedPublishedAt : String)
    (targetVersionDates : List VersionDate) (targetAllVersions : List Version)
    (includeDev includePeer : Bool) (parseDate : String → Option Int)
    (sources : List (String × String)) (deps : List String)
    (fetchResults : String → Except String DepMeta) : List Row :=
  deps.map (fun dep => processDependent targetName targetVersion compromisedPublishedAt
    targetVersionDates targetAllVersions includeDev includePeer parseDate
    (List.lookup dep sources) dep (fetchResults dep))

/-- C1 counterexample: the claim says a 429 response never consumes a retry
slot and 429 responses alone can never exhaust the budget; but with a budget
of retries = 0, a single 429 (followed by an available 200) makes the loop
exit with no value — the JavaScript continue still executes attempt++, so
the 429 consumed the only attempt and no retry of the same attempt occurs. -/
theorem c1_429_consumes_budget_counterexample :
    (fetchJSON (fun n => if n = 0 then Resp.http 429 none "" else Resp.http 200 none "ok")
      0).1 = JsonResult.noValue ∧
    JsonResult.noValue ≠ JsonResult.success "ok" := by
  exact ⟨rfl, by simp⟩

/-- C1 (amended): an attempt of fetchJSON that receives a 429 waits
(Retry-After seconds when the header is a nonzero number, else the
exponential delay capped at 60 seconds) and then proceeds to the next
attempt, consuming one slot of the attempt budget exactly like other
failures; consequently a schedule of nothing but 429 responses exhausts the
budget and the call returns no value. -/
theorem c1_rate_limit_consumes_attempt :
    (∀ (sched : Nat → Resp) (retries attempt fuel : Nat) (ra : Option Nat) (body : String),
      sched attempt = Resp.http 429 ra body →
      fetchGo sched retries attempt (fuel + 1) =
        ((fetchGo sched retries (attempt + 1) fuel).1,
          rateWaitSecs ra attempt * 1000 :: (fetchGo sched retries (attempt + 1) fuel).2)) ∧
    (∀ (sched : Nat → Resp) (retries : Nat),
      (∀ j, j ≤ retries → is429Resp (sched j) = true) →
      (fetchJSON sched retries).1 = JsonResult.noValue) := by
  constructor
  · intro sched retries attempt fuel ra body h
    simp [fetchGo, h]
  · intro sched retries hall
    refine fetchGo_noValue sched retries (retries + 1) 0 (by omega) ?_
      (hall retries (le_refl retries))
    intro j _ hj
    have h429 := hall j (le_of_lt hj)
    cases hresp : sched j with
    | netErr m => simp [isSuccessResp]
    | http s ra b =>
      rw [hresp] at h429
      have hs : s = 429 := by simpa [is429Resp] using h429
      subst hs
      simp [isSuccessResp, isOkStatus]

/-- Witness for c1_rate_limit_consumes_attempt at a concrete schedule. -/
theorem c1_rate_limit_consumes_attempt_witness :
    (fetchGo (fun _ => Resp.http 429 none "x") 3 0 3 =
      ((fetchGo (fun _ => Resp.http 429 none "x") 3 1 2).1,
        rateWaitSecs none 0 * 1000 :: (fetchGo (fun _ => Resp.http 429 none "x") 3 1 2).2)) ∧
    (fetchJSON (fun _ => Resp.http 429 none "x") 3).1 = JsonResult.noValue :=
  ⟨c1_rate_limit_consumes_attempt.1 (fun _ => Resp.http 429 none "x") 3 0 2 none "x" rfl,
    c1_rate_limit_consumes_attempt.2 (fun _ => Resp.http 429 none "x") 3 (fun _ _ => rfl)⟩

/-- C10: when the final permitted attempt of fetchJSON or fetchText receives
an HTTP 429 response, the loop exits after the rate-limit wait and the
function returns no value — an outcome distinct from every parsed body,
every returned text (including the empty string) and every thrown error. -/
theorem c10_final_429_returns_no_value :
    (∀ (sched : Nat → Resp) (retries : Nat) (ra : Option Nat) (body : String),
      (∀ j, j < retries → isSuccessResp (sched j) = false) →
      sched retries = Resp.http 429 ra body →
      (fetchJSON sched retries).1 = JsonResult.noValue ∧
      (fetchText sched retries).1 = TextResult.noValue) ∧
    (∀ b, JsonResult.noValue ≠ JsonResult.success b) ∧
    (∀ m, JsonResult.noValue ≠ JsonResult.failure m) ∧
    (∀ s, TextResult.noValue ≠ TextResult.text s) := by
  refine ⟨?_, fun b h => JsonResult.noConfusion h, fun m h => JsonResult.noConfusion h,
    fun s h => TextResult.noConfusion h⟩
  intro sched retries ra body hns h429
  have h4 : is429Resp (sched retries) = true := by rw [h429]; rfl
  constructor
  · exact fetchGo_noValue sched retries (retries + 1) 0 (by omega)
      (fun j _ hj => hns j hj) h4
  · exact fetchTextGo_noValue sched retries (retries + 1) 0 (by omega)
      (fun j _ hj => hns j hj) h4

/-- Witness for c10_final_429_returns_no_value: one failed attempt, then a
429 on the final permitted attempt. -/
theorem c10_final_429_returns_no_value_witness :
    (fetchJSON (fun n => if n = 0 then Resp.netErr "boom" else Resp.http 429 (some 7) "") 1).1
      = JsonResult.noValue ∧
    (fetchText (fun n => if n = 0 then Resp.netErr "boom" else Resp.http 429 (some 7) "") 1).1
      = TextResult.noValue :=
  c10_final_429_returns_no_value.1
    (fun n => if n = 0 then Resp.netErr "boom" else Resp.http 429 (some 7) "") 1 (some 7) ""
    (fun j hj => by
      have hj0 : j = 0 := by omega
      subst hj0
      rfl)
    rfl

/-- C2, evaluated at the failing inputs: the claim (and the source's own
comment and data dictionary) require isExactPin to be false on the caret
range ^1.2.3, but semver.coerce extracts 1.2.3 from the caret range, so the
code returns true both with a matching compromised version and without one;
the two exact-range examples behave as specified. -/
theorem c2_isExactPin_caret_behaviour :
    isExactPin "^1.2.3" "1.2.3" = true ∧ isExactPin "^1.2.3" "" = true ∧
    isExactPin "1.2.3" "1.2.3" = true ∧ isExactPin "1.2.3" "1.2.4" = false := by
  exact ⟨by decide, by decide, by decide, by decide⟩

/-- C3: maxSatisfyingAtOrBefore yields exactly the maximum version among the
timeline entries published at or before the cutoff that satisfies the range,
and null when the range or the date is missing, when no entry survives the
filter, or when no surviving version satisfies the range; including the
spec's concrete examples on the timeline (1.0.0,t1) (1.1.0,t2) (2.0.0,t3)
with range ^1.0.0. -/
theorem c3_maxSatisfyingAtOrBefore_correct :
    (∀ (t : List VersionDate) (r : Option Range) (d : Option Int) (v : Version),
      maxSatisfyingAtOrBefore t r d = some v ↔
        ∃ r' d', r = some r' ∧ d = some d' ∧ v ∈ survivors t d' ∧
          rangeSatisfies v r' = true ∧
          ∀ u ∈ survivors t d', rangeSatisfies u r' = true → vle u v = true) ∧
    (∀ t d, maxSatisfyingAtOrBefore t none d = none) ∧
    (∀ t r, maxSatisfyingAtOrBefore t r none = none) ∧
    maxSatisfyingAtOrBefore
      [⟨⟨1, 0, 0⟩, 1⟩, ⟨⟨1, 1, 0⟩, 2⟩, ⟨⟨2, 0, 0⟩, 3⟩]
      (some (Range.caret ⟨1, 0, 0⟩)) (some 2) = some ⟨1, 1, 0⟩ ∧
    maxSatisfyingAtOrBefore
      [⟨⟨1, 0, 0⟩, 1⟩, ⟨⟨1, 1, 0⟩, 2⟩, ⟨⟨2, 0, 0⟩, 3⟩]
      (some (Range.caret ⟨1, 0, 0⟩)) (some 0) = none := by
  refine ⟨?_, ?_, ?_, by decide, by decide⟩
  · intro t r d v
    cases r with
    | none => simp [maxSatisfyingAtOrBefore]
    | some r' =>
      cases d with
      | none => simp [maxSatisfyingAtOrBefore]
      | some d' =>
        rw [maxSatisfyingAtOrBefore]
        by_cases hemp : (survivors t d').isEmpty
        · rw [if_pos hemp]
          have hnil : survivors t d' = [] := List.isEmpty_iff.mp hemp
          simp [hnil]
        · rw [if_neg hemp]
          rw [maxSatisfying_some_iff]
          constructor
          · rintro ⟨h1, h2, h3⟩
            exact ⟨r', d', rfl, rfl, h1, h2, h3⟩
          · rintro ⟨r'', d'', hr, hd, h1, h2, h3⟩
            cases hr
            cases hd
            exact ⟨h1, h2, h3⟩
  · intro t d
    rfl
  · intro t r
    cases r <;> rfl

theorem impactEq_ok_iff {res : Option Version} {cv : String} {b : Bool}
    (h : impactEq res cv = .ok b) :
    (b = true ↔ ∃ rv c, res = some rv ∧ coerce cv = some c ∧ rv = c) := by
  cases res with
  | none =>
    rw [impactEq] at h
    cases h
    simp
  | some rv =>
    by_cases hc : cv = ""
    · subst hc
      rw [impactEq, if_pos rfl] at h
      cases h
      have hnone : coerce "" = none := rfl
      simp [hnone]
    · cases hco : coerce cv with
      | none =>
        rw [impactEq, if_neg hc, hco] at h
        cases h
      | some c =>
        rw [impactEq, if_neg hc, hco] at h
        cases h
        constructor
        · intro hb
          exact ⟨rv, c, rfl, rfl, by simpa using hb⟩
        · rintro ⟨rv', c', h1, h2, h3⟩
          cases h1
          cases h2
          simp [h3]

theorem finishRow_impact (tn tv cpa dpa : String) (fd : DepFind)
    (lastUpdate : Option String) (src : Option String) (dep : String)
    (ra rn : Option Version) :
    ((finishRow tn tv cpa dpa fd lastUpdate src dep ra rn).likely_impacted_at_release = true ↔
      ∃ rv c, (finishRow tn tv cpa dpa fd lastUpdate src dep ra rn).resolved_at_dependent_release
          = some rv ∧ coerce tv = some c ∧ rv = c) ∧
    ((finishRow tn tv cpa dpa fd lastUpdate src dep ra rn).still_impacted_now = true ↔
      ∃ rv c, (finishRow tn tv cpa dpa fd lastUpdate src dep ra rn).resolved_now = some rv ∧
        coerce tv = some c ∧ rv = c) := by
  cases h1 : impactEq ra tv with
  | error e =>
    rw [finishRow, h1]
    simp [errorRow]
  | ok likely =>
    cases h2 : impactEq rn tv with
    | error e =>
      rw [finishRow, h1, h2]
      simp [errorRow]
    | ok still =>
      rw [finishRow, h1, h2]
      exact ⟨impactEq_ok_iff h1, impactEq_ok_iff h2⟩

/-- C4: in every record processDependent emits, each impact flag is true
exactly when that flag's resolved version is present and the compromised
version coerces to an equal version; whenever either operand is missing the
flag is false (this includes the degraded record, whose resolved fields are
empty and whose flags are false). -/
theorem c4_impact_flags_iff :
    ∀ (targetName targetVersion compromisedPublishedAt : String)
      (tvd : List VersionDate) (tav : List Version) (dev peer : Bool)
      (pd : String → Option Int) (src : Option String) (dep : String)
      (fr : Except String DepMeta),
      ((processDependent targetName targetVersion compromisedPublishedAt tvd tav dev peer
          pd src dep fr).likely_impacted_at_release = true ↔
        ∃ rv c, (processDependent targetName targetVersion compromisedPublishedAt tvd tav
            dev peer pd src dep fr).resolved_at_dependent_release = some rv ∧
          coerce targetVersion = some c ∧ rv = c) ∧
      ((processDependent targetName targetVersion compromisedPublishedAt tvd tav dev peer
          pd src dep fr).still_impacted_now = true ↔
        ∃ rv c, (processDependent targetName targetVersion compromisedPublishedAt tvd tav
            dev peer pd src dep fr).resolved_now = some rv ∧
          coerce targetVersion = some c ∧ rv = c) := by
  intro targetName targetVersion compromisedPublishedAt tvd tav dev peer pd src dep fr
  cases fr with
  | error e =>
    rw [processDependent]
    simp [errorRow]
  | ok meta =>
    exact finishRow_impact targetName targetVersion compromisedPublishedAt _ _ _ src dep _ _

theorem finishRow_dependent (tn tv cpa dpa : String) (fd : DepFind)
    (lastUpdate : Option String) (src : Option String) (dep : String)
    (ra rn : Option Version) :
    (finishRow tn tv cpa dpa fd lastUpdate src dep ra rn).dependent = dep := by
  cases h1 : impactEq ra tv with
  | error e => rw [finishRow, h1]; rfl
  | ok likely =>
    cases h2 : impactEq rn tv with
    | error e => rw [finishRow, h1, h2]; rfl
    | ok still => rw [finishRow, h1, h2]

theorem processDependent_dependent
    (targetName targetVersion compromisedPublishedAt : String)
    (tvd : List VersionDate) (tav : List Version) (dev peer : Bool)
    (pd : String → Option Int) (src : Option String) (dep : String)
    (fr : Except String DepMeta) :
    (processDependent targetName targetVersion compromisedPublishedAt tvd tav dev peer
      pd src dep fr).dependent = dep := by
  cases fr with
  | error e => rfl
  | ok meta =>
    exact finishRow_dependent targetName targetVersion compromisedPublishedAt _ _ _ src dep _ _

/-- C9: the batch emits exactly one record per discovered dependent; the
record at each position belongs to that position's dependent, is computed
from that dependent's own fetch outcome alone, and a failed fetch yields the
degraded record carrying the error text with false and empty impact fields
— other dependents' records are unaffected. -/
theorem c9_one_record_per_dependent :
    ∀ (targetName targetVersion compromisedPublishedAt : String)
      (tvd : List VersionDate) (tav : List Version) (dev peer : Bool)
      (pd : String → Option Int) (sources : List (String × String))
      (deps : List String) (fetchResults : String → Except String DepMeta),
      (processBatch targetName targetVersion compromisedPublishedAt tvd tav dev peer pd
        sources deps fetchResults).length = deps.length ∧
      (∀ i, i < deps.length →
        ∃ dn r, deps.get? i = some dn ∧
          (processBatch targetName targetVersion compromisedPublishedAt tvd tav dev peer pd
            sources deps fetchResults).get? i = some r ∧
          r.dependent = dn ∧
          r = processDependent targetName targetVersion compromisedPublishedAt tvd tav dev
            peer pd (List.lookup dn sources) dn (fetchResults dn) ∧
          (∀ e, fetchResults dn = .error e →
            r = errorRow targetName targetVersion dn (List.lookup dn sources) e)) := by
  intro targetName targetVersion compromisedPublishedAt tvd tav dev peer pd sources deps
    fetchResults
  constructor
  · rw [processBatch, List.length_map]
  · intro i hi
    have hdn : deps.get? i = some (deps.get ⟨i, hi⟩) := List.get?_eq_get hi
    refine ⟨deps.get ⟨i, hi⟩,
      processDependent targetName targetVersion compromisedPublishedAt tvd tav dev peer pd
        (List.lookup (deps.get ⟨i, hi⟩) sources) (deps.get ⟨i, hi⟩)
        (fetchResults (deps.get ⟨i, hi⟩)),
      hdn, ?_, ?_, rfl, ?_⟩
    · rw [processBatch, List.get?_eq_getElem?, List.getElem?_map]
      rw [List.get?_eq_getElem?] at hdn
      rw [hdn]
      rfl
    · exact processDependent_dependent targetName targetVersion compromisedPublishedAt tvd
        tav dev peer pd (List.lookup (deps.get ⟨i, hi⟩) sources) (deps.get ⟨i, hi⟩)
        (fetchResults (deps.get ⟨i, hi⟩))
    · intro e he
      rw [he, processDependent]

/-- C5: every timeline built from a raw time map is sorted ascending by
publish date; normalized versions are unique, each entry being the first
occurrence of its version in map order; and every entry arises from a key
other than created/modified that coerces to its version, with a timestamp
that parses to a valid date. -/
theorem c5_timeline_invariants :
    ∀ (parseDate : String → Option Int) (tm : List (String × String)),
      (listVersionDatesFromTimeMap parseDate (some tm)).Pairwise
        (fun a b => a.date ≤ b.date) ∧
      ((listVersionDatesFromTimeMap parseDate (some tm)).map (·.version)).Nodup ∧
      (∀ e ∈ listVersionDatesFromTimeMap parseDate (some tm),
        (rawTimeEntries parseDate tm).find? (fun x => x.version == e.version) = some e) ∧
      (∀ e ∈ listVersionDatesFromTimeMap parseDate (some tm),
        ∃ k s, (k, s) ∈ tm ∧ k ≠ "created" ∧ k ≠ "modified" ∧
          coerce k = some e.version ∧ toDateSafe parseDate s = some e.date) := by
  intro parseDate tm
  have hperm := sortByCmp_perm dateCmp (dedupByVersion (rawTimeEntries parseDate tm) [])
  have hout : listVersionDatesFromTimeMap parseDate (some tm) =
      sortByCmp dateCmp (dedupByVersion (rawTimeEntries parseDate tm) []) := rfl
  refine ⟨?_, ?_, ?_, ?_⟩
  · rw [hout]
    have hsorted := sortByCmp_pairwise dateCmp (fun _ => True)
      (fun a b _ _ h => by rw [dateCmp] at *; omega)
      (fun a b c _ _ _ h1 h2 => by rw [dateCmp] at *; omega)
      (dedupByVersion (rawTimeEntries parseDate tm) []) (fun _ _ => trivial)
    exact hsorted.imp (fun h => by rw [dateCmp] at h; omega)
  · rw [hout]
    have hnd := dedupByVersion_version_nodup (rawTimeEntries parseDate tm) []
    exact (List.Perm.nodup_iff (hperm.map (·.version))).mpr hnd
  · intro e he
    rw [hout] at he
    exact mem_dedupByVersion_find? (hperm.mem_iff.mp he)
  · intro e he
    rw [hout] at he
    have hraw : e ∈ rawTimeEntries parseDate tm :=
      List.mem_of_find?_eq_some (mem_dedupByVersion_find? (hperm.mem_iff.mp he))
    exact rawTimeEntries_mem hraw

/-- Witness for c5_timeline_invariants on a concrete map and date parser. -/
theorem c5_timeline_invariants_witness :
    (⟨⟨1, 0, 0⟩, (5 : Int)⟩ : VersionDate) ∈
      listVersionDatesFromTimeMap (fun _ => some 5) (some [("1.0.0", "a")]) ∧
    (rawTimeEntries (fun _ => some 5) [("1.0.0", "a")]).find?
      (fun x => x.version == Version.mk 1 0 0) = some ⟨⟨1, 0, 0⟩, 5⟩ ∧
    (∃ k s, (k, s) ∈ [("1.0.0", "a")] ∧ k ≠ "created" ∧ k ≠ "modified" ∧
      coerce k = some ⟨1, 0, 0⟩ ∧ toDateSafe (fun _ => some 5) s = some 5) := by
  have h := c5_timeline_invariants (fun _ => some 5) [("1.0.0", "a")]
  have hmem : (⟨⟨1, 0, 0⟩, (5 : Int)⟩ : VersionDate) ∈
      listVersionDatesFromTimeMap (fun _ => some 5) (some [("1.0.0", "a")]) := by decide
  exact ⟨hmem, h.2.2.1 _ hmem, h.2.2.2 _ hmem⟩

theorem discInv_empty : DiscInv ⟨[], []⟩ := by
  constructor
  · exact List.nodup_nil
  · intro n
    simp [List.lookup]

/-- C6: for every behaviour of the three discovery stages, the final result
set contains each dependent name at most once, its provenance map has
exactly the discovered names as keys, and the source recorded for a name is
the stage that first produced it — names present after the primary stage
keep the npms tag, names first added by the Libraries.io stage keep the
libraries tag, and names first added by the scrape stage carry the scraped
tag; a later stage never re-adds or re-tags a name. -/
theorem c6_discovery_unique_first_source :
    ∀ (selfName : String) (includeDev includePeer : Bool) (max : Nat)
      (pDeps pDev pPeer : List (Option Page)) (noLibraries : Bool)
      (libResult : Except String (List String)) (noScrape : Bool)
      (scrapeResult : List String),
      (fetchAllDependentsState selfName includeDev includePeer max pDeps pDev pPeer
        noLibraries libResult noScrape scrapeResult).seen.Nodup ∧
      (∀ n, (List.lookup n (fetchAllDependentsState selfName includeDev includePeer max
        pDeps pDev pPeer noLibraries libResult noScrape scrapeResult).sources).isSome ↔
        n ∈ (fetchAllDependentsState selfName includeDev includePeer max pDeps pDev pPeer
          noLibraries libResult noScrape scrapeResult).seen) ∧
      (∀ n, n ∈ (afterPrimary selfName includeDev includePeer max pDeps pDev pPeer).seen →
        List.lookup n (fetchAllDependentsState selfName includeDev includePeer max pDeps
          pDev pPeer noLibraries libResult noScrape scrapeResult).sources = some "npms") ∧
      (∀ n, n ∈ (afterLibraries selfName includeDev includePeer max pDeps pDev pPeer
          noLibraries libResult).seen →
        n ∉ (afterPrimary selfName includeDev includePeer max pDeps pDev pPeer).seen →
        List.lookup n (fetchAllDependentsState selfName includeDev includePeer max pDeps
          pDev pPeer noLibraries libResult noScrape scrapeResult).sources
          = some "libraries") ∧
      (∀ n, n ∈ (fetchAllDependentsState selfName includeDev includePeer max pDeps pDev
          pPeer noLibraries libResult noScrape scrapeResult).seen →
        n ∉ (afterLibraries selfName includeDev includePeer max pDeps pDev pPeer
          noLibraries libResult).seen →
        List.lookup n (fetchAllDependentsState selfName includeDev includePeer max pDeps
          pDev pPeer noLibraries libResult noScrape scrapeResult).sources
          = some "scraped") := by
  intro selfName includeDev includePeer max pDeps pDev pPeer noLibraries libResult
    noScrape scrapeResult
  have hInv1 : DiscInv (afterPrimary selfName includeDev includePeer max pDeps pDev pPeer) := by
    rw [afterPrimary]
    exact primaryStage_inv selfName max _ _ discInv_empty
  have h2cases :
      afterLibraries selfName includeDev includePeer max pDeps pDev pPeer noLibraries
          libResult =
        afterPrimary selfName includeDev includePeer max pDeps pDev pPeer ∨
      ∃ more, afterLibraries selfName includeDev includePeer max pDeps pDev pPeer
          noLibraries libResult =
        addLoop "libraries" max more
          (afterPrimary selfName includeDev includePeer max pDeps pDev pPeer) := by
    rw [afterLibraries.eq_def]
    by_cases hg : fallbackGate noLibraries max
        (afterPrimary selfName includeDev includePeer max pDeps pDev pPeer) = true
    · cases libResult with
      | ok more => exact Or.inr ⟨more, by rw [if_pos hg]⟩
      | error e => exact Or.inl (by rw [if_pos hg])
    · exact Or.inl (by rw [if_neg hg])
  have hInv2 : DiscInv (afterLibraries selfName includeDev includePeer max pDeps pDev
      pPeer noLibraries libResult) := by
    rcases h2cases with h | ⟨more, h⟩
    · rw [h]; exact hInv1
    · rw [h]; exact addLoop_inv "libraries" max more _ hInv1
  have h3cases :
      fetchAllDependentsState selfName includeDev includePeer max pDeps pDev pPeer
          noLibraries libResult noScrape scrapeResult =
        afterLibraries selfName includeDev includePeer max pDeps pDev pPeer noLibraries
          libResult ∨
      fetchAllDependentsState selfName includeDev includePeer max pDeps pDev pPeer
          noLibraries libResult noScrape scrapeResult =
        addLoop "scraped" max scrapeResult
          (afterLibraries selfName includeDev includePeer max pDeps pDev pPeer noLibraries
            libResult) := by
    rw [fetchAllDependentsState]
    by_cases hg : fallbackGate noScrape max
        (afterLibraries selfName includeDev includePeer max pDeps pDev pPeer noLibraries
          libResult) = true
    · exact Or.inr (by rw [if_pos hg])
    · exact Or.inl (by rw [if_neg hg])
  have hInv3 : DiscInv (fetchAllDependentsState selfName includeDev includePeer max pDeps
      pDev pPeer noLibraries libResult noScrape scrapeResult) := by
    rcases h3cases with h | h
    · rw [h]; exact hInv2
    · rw [h]; exact addLoop_inv "scraped" max scrapeResult _ hInv2
  have mono12 : ∀ n, n ∈ (afterPrimary selfName includeDev includePeer max pDeps pDev
      pPeer).seen →
      n ∈ (afterLibraries selfName includeDev includePeer max pDeps pDev pPeer noLibraries
        libResult).seen ∧
      List.lookup n (afterLibraries selfName includeDev includePeer max pDeps pDev pPeer
        noLibraries libResult).sources =
      List.lookup n (afterPrimary selfName includeDev includePeer max pDeps pDev
        pPeer).sources := by
    intro n hn
    rcases h2cases with h | ⟨more, h⟩
    · rw [h]; exact ⟨hn, rfl⟩
    · rw [h]; exact addLoop_pres "libraries" max more _ n hn
  have mono23 : ∀ n, n ∈ (afterLibraries selfName includeDev includePeer max pDeps pDev
      pPeer noLibraries libResult).seen →
      n ∈ (fetchAllDependentsState selfName includeDev includePeer max pDeps pDev pPeer
        noLibraries libResult noScrape scrapeResult).seen ∧
      List.lookup n (fetchAllDependentsState selfName includeDev includePeer max pDeps
        pDev pPeer noLibraries libResult noScrape scrapeResult).sources =
      List.lookup n (afterLibraries selfName includeDev includePeer max pDeps pDev pPeer
        noLibraries libResult).sources := by
    intro n hn
    rcases h3cases with h | h
    · rw [h]; exact ⟨hn, rfl⟩
    · rw [h]; exact addLoop_pres "scraped" max scrapeResult _ n hn
  have npms1 : ∀ n, n ∈ (afterPrimary selfName includeDev includePeer max pDeps pDev
      pPeer).seen →
      List.lookup n (afterPrimary selfName includeDev includePeer max pDeps pDev
        pPeer).sources = some "npms" := by
    intro n hn
    rw [afterPrimary] at hn ⊢
    exact primaryStage_new selfName max _ _ n discInv_empty hn (by simp)
  refine ⟨hInv3.1, hInv3.2, ?_, ?_, ?_⟩
  · intro n hn
    obtain ⟨h12m, h12l⟩ := mono12 n hn
    obtain ⟨_, h23l⟩ := mono23 n h12m
    rw [h23l, h12l]
    exact npms1 n hn
  · intro n hn2 hn1
    have hlib : List.lookup n (afterLibraries selfName includeDev includePeer max pDeps
        pDev pPeer noLibraries libResult).sources = some "libraries" := by
      rcases h2cases with h | ⟨more, h⟩
      · rw [h] at hn2; exact absurd hn2 hn1
      · rw [h] at hn2 ⊢
        exact addLoop_new "libraries" max more _ n hInv1 hn2 hn1
    obtain ⟨_, h23l⟩ := mono23 n hn2
    rw [h23l]
    exact hlib
  · intro n hn3 hn2
    rcases h3cases with h | h
    · rw [h] at hn3; exact absurd hn3 hn2
    · rw [h] at hn3 ⊢
      exact addLoop_new "scraped" max scrapeResult _ n hInv2 hn3 hn2

/-- Witness for c6_discovery_unique_first_source on a run where each stage
contributes one name. -/
theorem c6_discovery_unique_first_source_witness :
    List.lookup "a" (fetchAllDependentsState "t" false false 10
      [some ⟨some 1, ["a"]⟩] [] [] false (.ok ["a", "b"]) false ["c"]).sources
      = some "npms" ∧
    List.lookup "b" (fetchAllDependentsState "t" false false 10
      [some ⟨some 1, ["a"]⟩] [] [] false (.ok ["a", "b"]) false ["c"]).sources
      = some "libraries" ∧
    List.lookup "c" (fetchAllDependentsState "t" false false 10
      [some ⟨some 1, ["a"]⟩] [] [] false (.ok ["a", "b"]) false ["c"]).sources
      = some "scraped" := by
  have h := c6_discovery_unique_first_source "t" false false 10
    [some ⟨some 1, ["a"]⟩] [] [] false (.ok ["a", "b"]) false ["c"]
  exact ⟨h.2.2.1 "a" (by decide), h.2.2.2.1 "b" (by decide) (by decide),
    h.2.2.2.2 "c" (by decide) (by decide)⟩

/-- C7: when the cap is positive and the primary stage alone has accumulated
at least the cap, both fallback gates are false and the cascade's final
state is the primary stage's state — neither the Libraries.io stage nor the
scrape stage is invoked. -/
theorem c7_cascade_short_circuit :
    ∀ (selfName : String) (includeDev includePeer : Bool) (max : Nat)
      (pDeps pDev pPeer : List (Option Page)) (noLibraries : Bool)
      (libResult : Except String (List String)) (noScrape : Bool)
      (scrapeResult : List String),
      max ≠ 0 →
      max ≤ (afterPrimary selfName includeDev includePeer max pDeps pDev pPeer).seen.length →
      fallbackGate noLibraries max
        (afterPrimary selfName includeDev includePeer max pDeps pDev pPeer) = false ∧
      afterLibraries selfName includeDev includePeer max pDeps pDev pPeer noLibraries
        libResult = afterPrimary selfName includeDev includePeer max pDeps pDev pPeer ∧
      fallbackGate noScrape max
        (afterPrimary selfName includeDev includePeer max pDeps pDev pPeer) = false ∧
      fetchAllDependentsState selfName includeDev includePeer max pDeps pDev pPeer
        noLibraries libResult noScrape scrapeResult =
        afterPrimary selfName includeDev includePeer max pDeps pDev pPeer := by
  intro selfName includeDev includePeer max pDeps pDev pPeer noLibraries libResult
    noScrape scrapeResult hmax hge
  have hgate : ∀ d : Bool, fallbackGate d max
      (afterPrimary selfName includeDev includePeer max pDeps pDev pPeer) = false := by
    intro d
    rw [fallbackGate]
    have h1 : decide ((afterPrimary selfName includeDev includePeer max pDeps pDev
        pPeer).seen.length = 0) = false := by
      simp only [decide_eq_false_iff_not]
      omega
    have h2 : decide ((afterPrimary selfName includeDev includePeer max pDeps pDev
        pPeer).seen.length < max) = false := by
      simp only [decide_eq_false_iff_not]
      omega
    rw [h1, h2]
    simp
  have heq2 : afterLibraries selfName includeDev includePeer max pDeps pDev pPeer
      noLibraries libResult =
      afterPrimary selfName includeDev includePeer max pDeps pDev pPeer := by
    rw [afterLibraries.eq_def]
    dsimp only
    rw [hgate noLibraries]
    simp
  refine ⟨hgate noLibraries, heq2, hgate noScrape, ?_⟩
  rw [fetchAllDependentsState, heq2, hgate noScrape]
  simp

/-- Witness for c7_cascade_short_circuit: cap 1, and the primary stage alone
reaches it. -/
theorem c7_cascade_short_circuit_witness :
    fallbackGate false 1 (afterPrimary "t" false false 1 [some ⟨some 5, ["a"]⟩] [] [])
      = false ∧
    afterLibraries "t" false false 1 [some ⟨some 5, ["a"]⟩] [] [] false (.ok ["b"]) =
      afterPrimary "t" false false 1 [some ⟨some 5, ["a"]⟩] [] [] ∧
    fallbackGate false 1 (afterPrimary "t" false false 1 [some ⟨some 5, ["a"]⟩] [] [])
      = false ∧
    fetchAllDependentsState "t" false false 1 [some ⟨some 5, ["a"]⟩] [] [] false
      (.ok ["b"]) false ["c"] =
      afterPrimary "t" false false 1 [some ⟨some 5, ["a"]⟩] [] [] :=
  c7_cascade_short_circuit "t" false false 1 [some ⟨some 5, ["a"]⟩] [] [] false
    (.ok ["b"]) false ["c"] (by decide) (by decide)

theorem lookup_mem {β : Type} {l : List (String × β)} {k : String} {v : β}
    (h : List.lookup k l = some v) : (k, v) ∈ l := by
  induction l with
  | nil => simp at h
  | cons p t ih =>
    obtain ⟨a, b⟩ := p
    by_cases hk : (k == a) = true
    · have hke : k = a := by simpa using hk
      subst hke
      simp only [List.lookup, beq_self_eq_true] at h
      cases h
      exact List.mem_cons_self _ _
    · have hb : (k == a) = false := by simpa using hk
      simp only [List.lookup, hb] at h
      exact List.mem_cons_of_mem _ (ih h)

/-- C8: the dependency locator checks the latest-tagged manifest first with
the fixed priority regular, then peer (when enabled), then dev (when
enabled), returning on the first match with the latest tag recorded as the
matched version; failing that it returns the first hit of the scan over the
version keys ordered by descending coerced precedence; and when no version
declares the target at all it returns the null declaration — null range and
null kind — as a normal, non-error outcome. -/
theorem c8_findDependencyRange_behaviour :
    ∀ (meta : DepMeta) (target : String) (dev peer : Bool),
      (∀ (man : Manifest) (r : String),
        lookupTruthy man.dependencies target = some r →
        checkManifest man target dev peer = some (r, "dep", false)) ∧
      (∀ (man : Manifest) (r : String),
        lookupTruthy man.dependencies target = none → peer = true →
        lookupTruthy man.peerDependencies target = some r →
        checkManifest man target dev peer = some (r, "peer", false)) ∧
      (∀ (man : Manifest) (r : String),
        lookupTruthy man.dependencies target = none →
        (peer = false ∨ lookupTruthy man.peerDependencies target = none) →
        dev = true →
        lookupTruthy man.devDependencies target = some r →
        checkManifest man target dev peer = some (r, "dev", true)) ∧
      (∀ (man : Manifest) (r ty : String) (d : Bool),
        latestManifest meta = some man →
        checkManifest man target dev peer = some (r, ty, d) →
        findDependencyRange meta target dev peer =
          ⟨some r, latestTagOf meta, d, some ty, (latestTagOf meta).getD ""⟩) ∧
      (∀ (k r ty : String) (d : Bool),
        (latestManifest meta).bind (fun man => checkManifest man target dev peer) = none →
        scanHit meta target dev peer = some (k, r, ty, d) →
        findDependencyRange meta target dev peer =
          ⟨some r, latestTagOf meta, d, some ty, k⟩) ∧
      ((∀ k ∈ meta.versions.map Prod.fst, (coerce k).isSome = true) →
        (sortByCmp versionKeyCmp (meta.versions.map Prod.fst)).Pairwise
          (fun a b => versionKeyCmp a b ≤ 0)) ∧
      ((∀ p ∈ meta.versions, checkManifest p.2 target dev peer = none) →
        findDependencyRange meta target dev peer =
          ⟨none, latestTagOf meta, false, none, ""⟩) := by
  intro meta target dev peer
  refine ⟨?_, ?_, ?_, ?_, ?_, ?_, ?_⟩
  · intro man r h
    simp [checkManifest, h]
  · intro man r h1 hpeer h2
    subst hpeer
    simp [checkManifest, h1, h2]
  · intro man r h1 hpeer hdev h2
    subst hdev
    rcases hpeer with hp | hp
    · subst hp
      simp [checkManifest, h1, h2]
    · simp [checkManifest, h1, hp, h2]
  · intro man r ty d hman hcm
    have hb : (latestManifest meta).bind (fun m => checkManifest m target dev peer)
        = some (r, ty, d) := by
      rw [hman]
      exact hcm
    simp [findDependencyRange, hb]
  · intro k r ty d hb hscan
    simp [findDependencyRange, hb, hscan]
  · intro hall
    refine sortByCmp_pairwise versionKeyCmp (fun k => (coerce k).isSome = true)
      ?_ ?_ _ hall
    · intro a b ha hb hlt
      obtain ⟨va, hva⟩ := Option.isSome_iff_exists.mp ha
      obtain ⟨vb, hvb⟩ := Option.isSome_iff_exists.mp hb
      rw [versionKeyCmp_le_iff hvb hva]
      rw [versionKeyCmp_lt_iff hva hvb] at hlt
      exact vlt_total (by simpa using hlt)
    · intro a b c ha hb hc h1 h2
      obtain ⟨va, hva⟩ := Option.isSome_iff_exists.mp ha
      obtain ⟨vb, hvb⟩ := Option.isSome_iff_exists.mp hb
      obtain ⟨vc, hvc⟩ := Option.isSome_iff_exists.mp hc
      rw [versionKeyCmp_le_iff hva hvb] at h1
      rw [versionKeyCmp_le_iff hvb hvc] at h2
      rw [versionKeyCmp_le_iff hva hvc]
      exact vle_trans h2 h1
  · intro hall
    have hb : (latestManifest meta).bind
        (fun man => checkManifest man target dev peer) = none := by
      cases hlm : latestManifest meta with
      | none => rfl
      | some man =>
        have hmem : ∃ t, List.lookup t meta.versions = some man := by
          rw [latestManifest] at hlm
          cases hlt : latestTagOf meta with
          | none => rw [hlt] at hlm; cases hlm
          | some t => rw [hlt] at hlm; exact ⟨t, hlm⟩
        obtain ⟨t, ht⟩ := hmem
        have hpmem : (t, man) ∈ meta.versions := lookup_mem ht
        exact hall (t, man) hpmem
    have hscan : scanHit meta target dev peer = none := by
      rw [scanHit]
      refine List.findSome?_eq_none_iff.mpr ?_
      intro k hk
      cases hlk : List.lookup k meta.versions with
      | none => rfl
      | some man =>
        have hpmem : (k, man) ∈ meta.versions := lookup_mem hlk
        have hc : checkManifest man target dev peer = none := hall (k, man) hpmem
        simp [hc]
    simp [findDependencyRange, hb, hscan]

/-- Witness for c8_findDependencyRange_behaviour: a dependent whose latest
manifest declares the target as a regular dependency, and a dependent with
no versions at all. -/
theorem c8_findDependencyRange_behaviour_witness :
    checkManifest ⟨[("tgt", "^1.0.0")], [], []⟩ "tgt" false true
      = some ("^1.0.0", "dep", false) ∧
    findDependencyRange
      ⟨[("latest", "2.0.0")], [("2.0.0", ⟨[("tgt", "^1.0.0")], [], []⟩)], []⟩
      "tgt" false true =
      ⟨some "^1.0.0", some "2.0.0", false, some "dep", "2.0.0"⟩ ∧
    findDependencyRange ⟨[], [], []⟩ "tgt" false true = ⟨none, none, false, none, ""⟩ := by
  have h := c8_findDependencyRange_behaviour
    ⟨[("latest", "2.0.0")], [("2.0.0", ⟨[("tgt", "^1.0.0")], [], []⟩)], []⟩ "tgt" false true
  have h0 := c8_findDependencyRange_behaviour ⟨[], [], []⟩ "tgt" false true
  refine ⟨h.1 ⟨[("tgt", "^1.0.0")], [], []⟩ "^1.0.0" (by decide), ?_, ?_⟩
  · have hb := h.2.2.2.1 ⟨[("tgt", "^1.0.0")], [], []⟩ "^1.0.0" "dep" false (by decide)
      (h.1 ⟨[("tgt", "^1.0.0")], [], []⟩ "^1.0.0" (by decide))
    rw [hb]
    decide
  · have hz := h0.2.2.2.2.2.2 (fun p hp => absurd hp (List.not_mem_nil p))
    rw [hz]
    decide

/-- Witness for c9_one_record_per_dependent: two dependents, the first of
which fails its metadata fetch. -/
theorem c9_one_record_per_dependent_witness :
    (processBatch "pkg" "1.0.0" "" [] [] false true (fun _ => none) [("a", "npms")]
      ["a", "b"]
      (fun d => if d = "a" then .error "boom" else .ok ⟨[], [], []⟩)).length = 2 ∧
    (∃ dn r, (["a", "b"] : List String).get? 0 = some dn ∧
      (processBatch "pkg" "1.0.0" "" [] [] false true (fun _ => none) [("a", "npms")]
        ["a", "b"]
        (fun d => if d = "a" then .error "boom" else .ok ⟨[], [], []⟩)).get? 0 = some r ∧
      r.dependent = dn ∧
      r = processDependent "pkg" "1.0.0" "" [] [] false true (fun _ => none)
        (List.lookup dn [("a", "npms")]) dn
        (if dn = "a" then Except.error "boom" else Except.ok ⟨[], [], []⟩) ∧
      (∀ e, (if dn = "a" then Except.error "boom"
          else Except.ok (⟨[], [], []⟩ : DepMeta)) = Except.error e →
        r = errorRow "pkg" "1.0.0" dn (List.lookup dn [("a", "npms")]) e)) := by
  have h := c9_one_record_per_dependent "pkg" "1.0.0" "" [] [] false true (fun _ => none)
    [("a", "npms")] ["a", "b"]
    (fun d => if d = "a" then .error "boom" else .ok ⟨[], [], []⟩)
  exact ⟨h.1, h.2 0 (by decide)⟩
